import Mathlib

/-!
Verification of the LakeStream scraping engine specification against a
shallow embedding of the source code.

Conventions of the embedding:
* Python strings are modelled as Lean `String` / `List Char`; `str.lower()`
  is modelled as ASCII case folding (`lowerC`), which agrees with Python on
  the ASCII range that URLs, schemes and the tested markers use.
* Machine floats that are only compared or stored (tier costs, search
  scores) are modelled as `ℚ`; no float arithmetic occurs in the claims.
* Python functions that can raise are modelled with `Option` results
  (`none` models the raised exception).
* Database rows are modelled as Lean structures; an SQL `UPDATE ... SET`
  is a function from the old row to the new row.
-/

namespace LakeStream

/-! ### Character utilities (ASCII case folding, substring scan) -/

/-- ASCII lower-casing of one character, the ASCII fragment of Python
`str.lower`: uppercase `A`-`Z` (65-90) maps to `a`-`z`, all else fixed. -/
def lowerC (c : Char) : Char :=
  if 65 ≤ c.toNat ∧ c.toNat ≤ 90 then Char.ofNat (c.toNat + 32) else c

/-- Scan for `n` occurring as a contiguous substring of `h`
(Python `n in h`). -/
def hasSub (n : List Char) (h : List Char) : Bool :=
  match h with
  | [] => n.isEmpty
  | _ :: t => n.isPrefixOf h || hasSub n t

/-! ### Scraping tiers, fetch results (src/models/scraping.py) -/

inductive ScrapingTier where
  | basic_http
  | headless_browser
  | headless_proxy
deriving DecidableEq, Repr

/-- TIER_COSTS from src/config/constants.py, in USD. -/
def tierCost : ScrapingTier → ℚ
  | .basic_http => mkRat 1 10000
  | .headless_browser => mkRat 2 1000
  | .headless_proxy => mkRat 4 1000

structure FetchResult where
  url : String
  status_code : Int
  html : String
  tier_used : ScrapingTier
  cost_usd : ℚ
  blocked : Bool
  captcha_detected : Bool
deriving DecidableEq, Repr

/-! ### Fetchers (src/scraping/fetcher/lake_fetcher.py and siblings)

All three Lake fetchers compute `blocked`/`captcha` identically on a
successful response, and on any exception return status 0, empty body,
blocked = true.  `outcome = none` models the `except` branch (network
failure); `outcome = some (status, html)` the successful response. -/

def captchaSignals : List String :=
  ["captcha", "challenge-form", "cf-browser-verification", "recaptcha",
   "hcaptcha", "turnstile"]

/-- LakeFetcher._detect_captcha: any signal is a substring of the
case-folded body. -/
def detectCaptcha (html : String) : Bool :=
  captchaSignals.any fun s => hasSub s.toList (html.toList.map lowerC)

/-- The blocked computation on a successful response:
`status_code in (403, 429, 503) or len(html) < 200`. -/
def fetchBlocked (status : Int) (html : String) : Bool :=
  (status == 403 || status == 429 || status == 503) || decide (html.length < 200)

/-- The FetchResult built by LakeFetcher.fetch (and the stealth/proxy
variants, which differ only in `tier_used`/cost). -/
def mkFetchResult (url : String) (tier : ScrapingTier)
    (outcome : Option (Int × String)) : FetchResult :=
  match outcome with
  | none =>
      { url := url, status_code := 0, html := "", tier_used := tier,
        cost_usd := tierCost tier, blocked := true, captcha_detected := false }
  | some (status, html) =>
      { url := url, status_code := status, html := html, tier_used := tier,
        cost_usd := tierCost tier, blocked := fetchBlocked status html,
        captcha_detected := detectCaptcha html }

/-- Blocked condition exactly as claim C2 words it: status in {403,429,503},
or body shorter than 200 bytes with status 200, or a network failure. -/
def specBlockedC2 (netFail : Bool) (status : Int) (html : String) : Bool :=
  netFail || (status == 403 || status == 429 || status == 503)
    || (status == 200 && decide (html.length < 200))

/-! ### Escalation policy (src/services/escalation.py) -/

def tierOrder : List ScrapingTier :=
  [.basic_http, .headless_browser, .headless_proxy]

/-- EscalationService.should_escalate. -/
def should_escalate (r : FetchResult) : Bool :=
  r.blocked || r.captcha_detected
    || (r.status_code == 403 || r.status_code == 429 || r.status_code == 503)
    || (r.status_code == 200 && decide (r.html.length < 200))

/-- EscalationService.get_next_tier: index in _TIER_ORDER, then the next
entry if not at the end; `none` both at the last tier and on ValueError. -/
def get_next_tier (current : ScrapingTier) : Option ScrapingTier :=
  match tierOrder.findIdx? (· == current) with
  | some idx => if idx < tierOrder.length - 1 then tierOrder[idx + 1]? else none
  | none => none

/-- Position of a tier in the fixed chain, for stating strictly later. -/
def tierIdx : ScrapingTier → Nat
  | .basic_http => 0
  | .headless_browser => 1
  | .headless_proxy => 2

/-! ### Job rows and update_job_status (src/db/queries/jobs.py) -/

inductive JobStatus where
  | pending
  | running
  | completed
  | failed
deriving DecidableEq, Repr

/-- A scrape_jobs row, restricted to the columns update_job_status touches. -/
structure JobRow where
  status : JobStatus
  strategy_used : Option String
  error_message : Option String
  cost_usd : ℚ
  duration_ms : Option Int
  pages_scraped : Int
  completed_at : Option Int
deriving DecidableEq, Repr

/-- The keyword arguments of update_job_status; `none` models an omitted
(None) argument, which is left out of the SET clause. -/
structure UpdateArgs where
  status : JobStatus
  strategy_used : Option String := none
  error_message : Option String := none
  cost_usd : Option ℚ := none
  duration_ms : Option Int := none
  pages_scraped : Option Int := none
  completed_at : Option Int := none

/-- update_job_status: an unconditional UPDATE; `status` is always set and
each remaining column is set exactly when its argument is not None.  The
query has no guard on the row's current status. -/
def update_job_status (row : JobRow) (a : UpdateArgs) : JobRow :=
  { status := a.status,
    strategy_used := match a.strategy_used with
      | some v => some v
      | none => row.strategy_used,
    error_message := match a.error_message with
      | some v => some v
      | none => row.error_message,
    cost_usd := match a.cost_usd with
      | some v => v
      | none => row.cost_usd,
    duration_ms := match a.duration_ms with
      | some v => some v
      | none => row.duration_ms,
    pages_scraped := match a.pages_scraped with
      | some v => v
      | none => row.pages_scraped,
    completed_at := match a.completed_at with
      | some v => some v
      | none => row.completed_at }

/-! ### The orchestrator's terminal transitions (src/queue/jobs.py)

process_scrape_job issues exactly these update_job_status calls: first
`RUNNING` with no other fields, then on success `COMPLETED` with
duration_ms, pages_scraped, cost_usd and completed_at = datetime.now(),
or on an escaping exception `FAILED` with error_message and duration_ms
only — the failure branch passes no completed_at. -/

def runningArgs : UpdateArgs := { status := .running }

/-- Arguments of the COMPLETED transition (src/queue/jobs.py lines 101-109). -/
def completeArgs (duration pages : Int) (cost : ℚ) (now : Int) : UpdateArgs :=
  { status := .completed, duration_ms := some duration,
    pages_scraped := some pages, cost_usd := some cost,
    completed_at := some now }

/-- Arguments of the FAILED transition (src/queue/jobs.py lines 154-160). -/
def failArgs (msg : String) (duration : Int) : UpdateArgs :=
  { status := .failed, error_message := some msg, duration_ms := some duration }

/-- A freshly created scrape_jobs row (create_job inserts only id, domain,
template_id and status PENDING; all other columns take their defaults,
completed_at NULL). -/
def freshRow : JobRow :=
  { status := .pending, strategy_used := none, error_message := none,
    cost_usd := 0, duration_ms := none, pages_scraped := 0,
    completed_at := none }

/-! ### URL parsing (CPython urllib.parse, as consumed by src/utils/url.py)

The repository's URL helpers delegate to `urllib.parse.urlparse`,
`urlunparse` and `urljoin`.  The functions below embed the CPython 3.11
implementations of those routines, specialised to `allow_fragments=True`
and inputs free of the tab/CR/LF characters that urlsplit strips (valid
URLs contain none).  A mismatched square bracket in the authority raises
ValueError in CPython; the checked variants return `none` there. -/

/-- ASCII test used by urlsplit's scheme check (`isascii() and isalpha()`). -/
def isAlphaChar (c : Char) : Bool :=
  (65 ≤ c.toNat && c.toNat ≤ 90) || (97 ≤ c.toNat && c.toNat ≤ 122)

def isDigitChar (c : Char) : Bool :=
  48 ≤ c.toNat && c.toNat ≤ 57

/-- scheme_chars of urllib.parse: letters, digits, and `+-.`. -/
def isSchemeChar (c : Char) : Bool :=
  isAlphaChar c || isDigitChar c || c == '+' || c == '-' || c == '.'

/-- Python `s.partition(ch)` restricted to what urlsplit uses: the part
before the first `ch` and the part after it (empty when `ch` is absent,
exactly as the `if ch in url` guards make the two cases agree). -/
def splitOnFirst (ch : Char) : List Char → List Char × List Char
  | [] => ([], [])
  | c :: t =>
    if c = ch then ([], t)
    else
      let p := splitOnFirst ch t
      (c :: p.1, p.2)

/-- Nonempty prefix of valid scheme characters starting with a letter
(the loop over `url[:i]` in urlsplit plus the `i > 0` / alpha guard). -/
def schemeOkChars (t : List Char) : Bool :=
  match t with
  | [] => false
  | c :: _ => isAlphaChar c && t.all isSchemeChar

/-- The scheme split of urlsplit: take the text before the first `:`;
when it is a well-formed scheme, return it lower-cased together with the
remainder, else no scheme and the whole input. -/
def splitScheme (l : List Char) : Option (List Char) × List Char :=
  if (l.takeWhile (· ≠ ':')).length < l.length ∧
      schemeOkChars (l.takeWhile (· ≠ ':')) then
    (some ((l.takeWhile (· ≠ ':')).map lowerC),
     l.drop ((l.takeWhile (· ≠ ':')).length + 1))
  else (none, l)

def isNetlocEnd (c : Char) : Bool := c == '/' || c == '?' || c == '#'

/-- _splitnetloc: after a leading `//`, the authority runs to the first of
`/?#`. -/
def splitNetloc (l : List Char) : List Char × List Char :=
  match l with
  | '/' :: '/' :: rest =>
      (rest.takeWhile (fun c => !isNetlocEnd c),
       rest.dropWhile (fun c => !isNetlocEnd c))
  | _ => ([], l)

/-- The ValueError guard of urlsplit: a `[` without `]` (or conversely) in
the authority is invalid. -/
def bracketOk (n : List Char) : Bool := n.contains '[' == n.contains ']'

structure SplitParts where
  scheme : List Char
  netloc : List Char
  path : List Char
  query : List Char
  fragment : List Char
deriving DecidableEq, Repr

/-- urlsplit without the bracket validity check (total): scheme, then
authority, then fragment at the first `#`, then query at the first `?`. -/
def urlsplitRaw (l : List Char) (defScheme : List Char) : SplitParts :=
  { scheme := (splitScheme l).1.getD defScheme,
    netloc := (splitNetloc (splitScheme l).2).1,
    path := (splitOnFirst '?'
      (splitOnFirst '#' (splitNetloc (splitScheme l).2).2).1).1,
    query := (splitOnFirst '?'
      (splitOnFirst '#' (splitNetloc (splitScheme l).2).2).1).2,
    fragment := (splitOnFirst '#' (splitNetloc (splitScheme l).2).2).2 }

structure UrlParts where
  scheme : List Char
  netloc : List Char
  path : List Char
  params : List Char
  query : List Char
  fragment : List Char
deriving DecidableEq, Repr

/-- uses_params of urllib.parse. -/
def usesParams : List (List Char) :=
  ["", "ftp", "hdl", "prospero", "http", "imap", "https", "shttp", "rtsp",
   "rtspu", "sip", "sips", "mms", "sftp", "tel"].map String.toList

/-- uses_relative of urllib.parse. -/
def usesRelative : List (List Char) :=
  ["", "ftp", "http", "gopher", "nntp", "imap", "wais", "file", "https",
   "shttp", "mms", "prospero", "rtsp", "rtspu", "sftp", "svn", "svn+ssh",
   "ws", "wss"].map String.toList

/-- uses_netloc of urllib.parse. -/
def usesNetloc : List (List Char) :=
  ["", "ftp", "http", "gopher", "nntp", "telnet", "imap", "wais", "file",
   "mms", "https", "shttp", "snews", "prospero", "rtsp", "rtspu", "rsync",
   "svn", "svn+ssh", "sftp", "nfs", "git", "git+ssh", "ws", "wss",
   "itms-services"].map String.toList

/-- The part of the path after its last slash. -/
def afterLastSlash (l : List Char) : List Char :=
  (l.reverse.takeWhile (· ≠ '/')).reverse

/-- _splitparams: split at the first `;` that follows the last `/` (or the
first `;` at all when the path has no slash); no such `;` means no params. -/
def splitparams (l : List Char) : List Char × List Char :=
  if l.contains '/' then
    let b := afterLastSlash l
    let a := l.take (l.length - b.length)
    if b.contains ';' then
      let p := splitOnFirst ';' b
      (a ++ p.1, p.2)
    else (l, [])
  else
    if l.contains ';' then splitOnFirst ';' l else (l, [])

/-- urlparse without the bracket check: urlsplit plus the params split,
which applies only for schemes in uses_params. -/
def urlparseRaw (l : List Char) (defScheme : List Char) : UrlParts :=
  let s := urlsplitRaw l defScheme
  if usesParams.contains s.scheme ∧ s.path.contains ';' then
    let p := splitparams s.path
    ⟨s.scheme, s.netloc, p.1, p.2, s.query, s.fragment⟩
  else ⟨s.scheme, s.netloc, s.path, [], s.query, s.fragment⟩

/-- urlparse with the ValueError of the bracket check as `none`. -/
def urlparseOpt (l : List Char) (defScheme : List Char) : Option UrlParts :=
  if bracketOk (urlsplitRaw l defScheme).netloc then
    some (urlparseRaw l defScheme)
  else none

/-- urlunsplit of urllib.parse. -/
def urlunsplit (scheme netloc url query fragment : List Char) : List Char :=
  let url1 :=
    if netloc ≠ [] ∨ ['/', '/'].isPrefixOf url then
      let u := if url ≠ [] ∧ ¬(['/'].isPrefixOf url) then '/' :: url else url
      '/' :: '/' :: (netloc ++ u)
    else url
  let url2 := if scheme ≠ [] then scheme ++ ':' :: url1 else url1
  let url3 := if query ≠ [] then url2 ++ '?' :: query else url2
  if fragment ≠ [] then url3 ++ '#' :: fragment else url3

/-- urlunparse: re-attach params with `;`, then urlunsplit. -/
def urlunparse (p : UrlParts) : List Char :=
  let url := if p.params ≠ [] then p.path ++ ';' :: p.params else p.path
  urlunsplit p.scheme p.netloc url p.query p.fragment

/-- The middle-segment filtering of urljoin:
`segments[1:-1] = filter(None, segments[1:-1])`. -/
def filterMiddle (segs : List (List Char)) : List (List Char) :=
  match segs with
  | [] => []
  | [x] => [x]
  | x :: rest =>
      x :: ((rest.dropLast.filter (fun s => !s.isEmpty)) ++ [rest.getLast?.getD []])

/-- The `..` / `.` resolution loop of urljoin (pop on `..`, skip `.`). -/
def resolveSegs (segments : List (List Char)) : List (List Char) :=
  segments.foldl
    (fun acc seg =>
      if seg = ['.', '.'] then acc.dropLast
      else if seg = ['.'] then acc
      else acc ++ [seg])
    []

/-- urljoin of urllib.parse (CPython 3.11); `none` models the ValueError a
mismatched bracket raises inside its urlparse calls. -/
def urljoinOpt (base url : List Char) : Option (List Char) :=
  if base.isEmpty then some url
  else if url.isEmpty then some base
  else
    (urlparseOpt base []).bind fun bp =>
    (urlparseOpt url bp.scheme).bind fun up =>
    if up.scheme ≠ bp.scheme ∨ ¬usesRelative.contains up.scheme then
      some url
    else
      if usesNetloc.contains up.scheme ∧ up.netloc ≠ [] then
        some (urlunparse up)
      else
        let netloc := if usesNetloc.contains up.scheme then bp.netloc else up.netloc
        if up.path = [] ∧ up.params = [] then
          some (urlunparse ⟨up.scheme, netloc, bp.path, bp.params,
            (if up.query = [] then bp.query else up.query), up.fragment⟩)
        else
          let baseParts0 := bp.path.splitOn '/'
          let baseParts :=
            if baseParts0.getLast? ≠ some [] then baseParts0.dropLast
            else baseParts0
          let segments :=
            if ['/'].isPrefixOf up.path then up.path.splitOn '/'
            else filterMiddle (baseParts ++ up.path.splitOn '/')
          let resolved0 := resolveSegs segments
          let resolved :=
            if segments.getLast? = some ['.'] ∨ segments.getLast? = some ['.', '.'] then
              resolved0 ++ [[]]
            else resolved0
          let joined := List.intercalate ['/'] resolved
          some (urlunparse ⟨up.scheme, netloc,
            (if joined.isEmpty then ['/'] else joined),
            up.params, up.query, up.fragment⟩)

/-! ### normalize_url and is_valid_scrape_url (src/utils/url.py) -/

/-- Strip trailing slashes from the path
(Python `path.rstrip("/")`). -/
def rstripSlash (l : List Char) : List Char :=
  (l.reverse.dropWhile (· = '/')).reverse

/-- Python `path.rstrip("/") or "/"`. -/
def orSlash (l : List Char) : List Char := if l.isEmpty then ['/'] else l

/-- The component rewrite of normalize_url: lower-case scheme and netloc,
drop the fragment, strip the trailing slash of the path (keeping root). -/
def normParts (p : UrlParts) : UrlParts :=
  { scheme := p.scheme.map lowerC, netloc := p.netloc.map lowerC,
    path := orSlash (rstripSlash p.path), params := p.params,
    query := p.query, fragment := [] }

/-- normalize_url without the base-resolution step: parse, rewrite
components, unparse. -/
def coreNormalize (l : List Char) : Option (List Char) :=
  (urlparseOpt l []).map fun p => urlunparse (normParts p)

def startsWithHttp (l : List Char) : Bool :=
  "http://".toList.isPrefixOf l || "https://".toList.isPrefixOf l

/-- normalize_url of src/utils/url.py: resolve a non-absolute URL against
the base when one is given, then normalize; `none` models the ValueError
of a mismatched bracket. -/
def normalize_url (url : String) (base : Option String) : Option String :=
  let l := url.toList
  let joined : Option (List Char) :=
    match base with
    | some b =>
        if ¬b.isEmpty ∧ ¬startsWithHttp l then urljoinOpt b.toList l
        else some l
    | none => some l
  (joined.bind coreNormalize).map fun cs => String.mk cs

/-- The extension blacklist of is_valid_scrape_url. -/
def skipExtensions : List String :=
  [".pdf", ".jpg", ".jpeg", ".png", ".gif", ".svg", ".ico", ".css", ".js",
   ".woff", ".woff2", ".ttf", ".eot", ".mp3", ".mp4", ".avi", ".mov",
   ".zip", ".gz", ".tar", ".xml", ".rss", ".atom"]

/-- Python `s.startswith(p)` on character lists. -/
def strStarts (s p : String) : Bool := p.toList.isPrefixOf s.toList

/-- Python `s.endswith(p)` on character lists. -/
def strEnds (s p : String) : Bool := p.toList.isSuffixOf s.toList

/-- is_valid_scrape_url of src/utils/url.py: reject empty, fragment-only,
mailto/tel/javascript links, and paths ending in an asset extension; the
parse happens only after the early returns, and its ValueError is `none`. -/
def is_valid_scrape_url (url : String) : Option Bool :=
  if url = "" ∨ strStarts url "#" ∨ strStarts url "mailto:" ∨
      strStarts url "tel:" ∨ strStarts url "javascript:" then
    some false
  else
    (urlparseOpt url.toList []).map fun p =>
      !(skipExtensions.any fun ext =>
        strEnds (String.mk (p.path.map lowerC)) ext)

/-! ### validate_and_deduplicate (src/scraping/validator/url_validator.py)

Validates each raw URL, then normalizes, then deduplicates the normalized
form order-preservingly.  Note the validity test runs on the raw URL, the
output carries the normalized one. -/

def validate_and_deduplicate_step (acc : Option (List String)) (url : String) :
    Option (List String) :=
  match acc with
  | none => none
  | some seen =>
    match is_valid_scrape_url url with
    | none => none
    | some false => some seen
    | some true =>
      match normalize_url url none with
      | none => none
      | some n => if seen.contains n then some seen else some (seen ++ [n])

def validate_and_deduplicate (urls : List String) : Option (List String) :=
  urls.foldl validate_and_deduplicate_step (some [])

/-! ### URL classifier (src/scraping/parser/url_classifier.py)

The classifier's regexes all have one of four simple shapes; each is
embedded as an explicit matcher over the (case-folded, re.IGNORECASE)
path.  `\b` after a word character holds exactly when the next character
is not a word character or the string ends there. -/

inductive DataType where
  | blog_url
  | article
  | resource
  | contact
  | tech_stack
  | pricing
deriving DecidableEq, Repr

def dataTypeName : DataType → String
  | .blog_url => "blog_url"
  | .article => "article"
  | .resource => "resource"
  | .contact => "contact"
  | .tech_stack => "tech_stack"
  | .pricing => "pricing"

/-- Word character of the regex `\b` boundary (ASCII `\w`). -/
def isWordChar (c : Char) : Bool := isAlphaChar c || isDigitChar c || c == '_'

/-- The `\b` boundary after a literal that ends in a word character: the
rest must be empty or start with a non-word character. -/
def boundaryAt (rest : List Char) : Bool :=
  match rest with
  | [] => true
  | c :: _ => !isWordChar c

/-- The four regex shapes used by _PATTERNS: `lit\b`, `lits?\b`, a plain
substring, and the date pattern `/\d{4}/\d{2}/`. -/
inductive UPat where
  | litb (s : String)
  | litsb (s : String)
  | plain (s : String)
  | dateSlug
deriving DecidableEq, Repr

/-- Does the pattern match starting exactly at this position? -/
def matchAt (p : UPat) (l : List Char) : Bool :=
  match p with
  | .litb s => s.toList.isPrefixOf l && boundaryAt (l.drop s.toList.length)
  | .litsb s =>
      s.toList.isPrefixOf l &&
        (boundaryAt (l.drop s.toList.length) ||
          (match l.drop s.toList.length with
           | 's' :: r => boundaryAt r
           | _ => false))
  | .plain s => s.toList.isPrefixOf l
  | .dateSlug =>
      match l with
      | '/' :: a :: b :: c :: d :: '/' :: e :: f :: '/' :: _ =>
          isDigitChar a && isDigitChar b && isDigitChar c && isDigitChar d &&
            isDigitChar e && isDigitChar f
      | _ => false

/-- re.search: the pattern matches at some position. -/
def searchPat (p : UPat) : List Char → Bool
  | [] => matchAt p []
  | c :: t => matchAt p (c :: t) || searchPat p t

/-- _PATTERNS of url_classifier.py, in source order. -/
def classifyRules : List (DataType × List UPat) :=
  [ (.pricing, [.litb "/pricing", .litsb "/plan", .litsb "/package"]),
    (.contact, [.litb "/contact", .litb "/get-in-touch", .litb "/demo",
      .litb "/request", .litsb "/career", .litsb "/job"]),
    (.resource, [.litsb "/resource", .litsb "/whitepaper", .plain "/case-stud",
      .litsb "/webinar", .litsb "/ebook", .litb "/library", .litsb "/download",
      .litsb "/guide"]),
    (.blog_url, [.litb "/blog", .litsb "/insight", .litb "/news",
      .litsb "/article", .litsb "/post", .litb "/stories", .dateSlug]),
    (.contact, [.litb "/team", .litb "/about", .litb "/leadership",
      .litb "/people", .litb "/our-team", .litb "/staff"]) ]

structure UrlClass where
  url : String
  data_type : String
  confidence : ℚ
deriving DecidableEq, Repr

/-- Does any regex of the rule match the (case-folded) path? -/
def ruleHits (path : List Char) (rule : DataType × List UPat) : Bool :=
  rule.2.any fun pat => searchPat pat path

/-- classify_url: parse the URL, try the ordered rules on the path, first
match wins with confidence 0.8, default blog_url with confidence 0.2;
`none` models the ValueError urlparse raises on a mismatched bracket. -/
def classify_url (url : String) : Option UrlClass :=
  (urlparseOpt url.toList []).map fun p =>
    let path := p.path.map lowerC
    match classifyRules.find? (ruleHits path) with
    | some rule => { url := url, data_type := dataTypeName rule.1, confidence := mkRat 4 5 }
    | none => { url := url, data_type := "blog_url", confidence := mkRat 1 5 }

/-! ### Contact extraction (src/scraping/parser/contact_parser.py)

The HTML/DOM layer (selectolax) is outside the embedding; extract_people
is modelled over the outputs of its three strategies, and the JSON-LD
strategy over already-decoded JSON-LD items.  A person dict is modelled
with string fields where Python's None and a missing key behave alike
under the truthiness tests of _deduplicate (both falsy); `last_name`
keeps the `Option` because Python renders None as the literal "None"
inside the f-string that builds the dedup name key.  A JSON-LD Person
whose `email` key is absent makes _deduplicate raise (None.lower()); the
model covers email-carrying items (possibly the empty string). -/

structure Person where
  first_name : String
  last_name : Option String
  job_title : String
  email : String
  linkedin_url : String
  source : String
deriving DecidableEq, Repr

structure LdItem where
  atType : String
  name : String
  jobTitle : String
  email : String
  sameAs : String
deriving DecidableEq, Repr

/-- Python `name.split(" ", 1)`: the head part and, when a space occurs,
the remainder after the first space. -/
def splitFirstSpace (s : String) : String × Option String :=
  let l := s.toList
  let a := l.takeWhile (· ≠ ' ')
  if a.length < l.length then (String.mk a, some (String.mk (l.drop (a.length + 1))))
  else (String.mk a, none)

/-- ContactParser._from_json_ld on one decoded item. -/
def fromJsonLdItem (it : LdItem) : Option Person :=
  if it.atType = "Person" then
    let p := splitFirstSpace it.name
    some { first_name := p.1, last_name := p.2, job_title := it.jobTitle,
           email := it.email, linkedin_url := it.sameAs, source := "json_ld" }
  else none

def fromJsonLd (items : List LdItem) : List Person :=
  items.filterMap fromJsonLdItem

def pySpace (c : Char) : Bool := c == ' ' || c == '\t' || c == '\n' || c == '\r'

/-- Python `s.strip()` for the whitespace the name key can carry. -/
def pyStrip (l : List Char) : List Char :=
  ((l.dropWhile pySpace).reverse.dropWhile pySpace).reverse

def strLower (s : String) : String := String.mk (s.toList.map lowerC)

/-- The name key of _deduplicate:
`f"{first_name} {last_name}".strip().lower()`, where a None last_name
renders as the literal "None". -/
def nameKey (p : Person) : String :=
  strLower (String.mk (pyStrip
    (p.first_name.toList ++ ' ' :: (match p.last_name with
      | some s => s.toList
      | none => "None".toList))))

/-- One key of the merge loop: overwrite only when the incoming value is
truthy and the existing one is falsy. -/
def mergeField (old new : String) : String :=
  if new ≠ "" ∧ old = "" then new else old

def mergeFieldO (old new : Option String) : Option String :=
  match new with
  | some s => if s ≠ "" ∧ old.getD "" = "" then some s else old
  | none => old

def mergePerson (old p : Person) : Person :=
  { first_name := mergeField old.first_name p.first_name,
    last_name := mergeFieldO old.last_name p.last_name,
    job_title := mergeField old.job_title p.job_title,
    email := mergeField old.email p.email,
    linkedin_url := mergeField old.linkedin_url p.linkedin_url,
    source := mergeField old.source p.source }

structure DedupState where
  result : List Person
  seenEmails : List (String × Nat)
  seenNames : List (String × Nat)
deriving Repr

def lookupIdx (m : List (String × Nat)) (k : String) : Option Nat :=
  (m.find? fun kv => kv.1 = k).map (·.2)

/-- One iteration of ContactParser._deduplicate. -/
def dedupStep (st : DedupState) (p : Person) : DedupState :=
  let email := strLower p.email
  let name := nameKey p
  if email ≠ "" ∧ (lookupIdx st.seenEmails email).isSome then
    match lookupIdx st.seenEmails email with
    | some idx =>
        match st.result[idx]? with
        | some old => { st with result := st.result.set idx (mergePerson old p) }
        | none => st
    | none => st
  else if name ≠ "" ∧ (lookupIdx st.seenNames name).isSome then
    match lookupIdx st.seenNames name with
    | some idx =>
        match st.result[idx]? with
        | some old => { st with result := st.result.set idx (mergePerson old p) }
        | none => st
    | none => st
  else
    let idx := st.result.length
    { result := st.result ++ [p],
      seenEmails := if email ≠ "" then st.seenEmails ++ [(email, idx)] else st.seenEmails,
      seenNames := if name ≠ "" then st.seenNames ++ [(name, idx)] else st.seenNames }

def deduplicate (people : List Person) : List Person :=
  (people.foldl dedupStep ⟨[], [], []⟩).result

/-- extract_people: JSON-LD people, then team cards, then — only when both
came up empty — the e-mail pattern fallback; finally _deduplicate. -/
def extract_people (s1 s2 s3 : List Person) : List Person :=
  deduplicate (s1 ++ s2 ++ (if (s1 ++ s2).isEmpty then s3 else []))

/-! ### Sitemap-first domain mapping (src/services/crawler.py)

`re.findall(r"<loc>(.*?)</loc>", text)` scans left to right; `.` does not
cross a newline, and scanning resumes after each full match. -/

/-- Lazy capture of `(.*?)</loc>`: the characters up to the nearest
`</loc>`, failing on a newline or the end of input. -/
def takeUntilCloseLoc (l : List Char) : Option (List Char × List Char) :=
  match l with
  | [] => none
  | c :: t =>
    if "</loc>".toList.isPrefixOf l then some ([], l.drop 6)
    else if c = '\n' then none
    else
      match takeUntilCloseLoc t with
      | some r => some (c :: r.1, r.2)
      | none => none

/-- All matches of `<loc>(.*?)</loc>` over the body, with a fuel argument
for structural recursion.  Each step either advances one character or
consumes a full match (at least eleven characters), so fuel equal to the
input length never runs out: the fuel-zero arm coincides with the empty-
input arm it would reduce to. -/
def findLocsAux : Nat → List Char → List (List Char)
  | 0, _ => []
  | _ + 1, [] => []
  | fuel + 1, c :: t =>
    if "<loc>".toList.isPrefixOf (c :: t) then
      match takeUntilCloseLoc ((c :: t).drop 5) with
      | some r => r.1 :: findLocsAux fuel r.2
      | none => findLocsAux fuel t
    else findLocsAux fuel t

def findLocs (l : List Char) : List (List Char) := findLocsAux l.length l

/-- Order-preserving enumeration of the sitemap URL set (first
occurrence wins). -/
def dedupKeepFirst (seen : List String) : List String → List String
  | [] => []
  | x :: t =>
    if seen.contains x then dedupKeepFirst seen t
    else x :: dedupKeepFirst (x :: seen) t

/-- CrawlerService._try_sitemap given the sitemap response: on a 200,
collect the `<loc>` entries that pass is_valid_scrape_url, as a set; any
exception inside (including urlparse's ValueError) is caught and yields
the empty set, as does a non-200 status. -/
def trySitemap (status : Int) (body : String) : List String :=
  if status == 200 then
    let locs := (findLocs body.toList).map fun cs => String.mk cs
    if locs.all fun u => (is_valid_scrape_url u).isSome then
      dedupKeepFirst [] (locs.filter fun u => is_valid_scrape_url u = some true)
    else []
  else []

/-- CrawlerService.map_domain given the sitemap response and the result
the recursive crawler would produce: a non-empty sitemap set is returned
(capped), otherwise the crawler runs; the Bool records whether the
recursive crawler was invoked. -/
def map_domain (status : Int) (body : String) (limit : Nat)
    (crawlResult : List String) : List String × Bool :=
  let s := trySitemap status body
  if s.isEmpty then (crawlResult, true) else (s.take limit, false)

/-! ### Discovery dedupe (src/services/domain_extractor.py) -/

structure SearchResult where
  url : String
  title : String
  snippet : String
  score : Option ℚ
  domain : String
deriving DecidableEq, Repr

/-- Python `result.score or 0` (None and 0.0 both give 0). -/
def scoreOr0 (r : SearchResult) : ℚ := r.score.getD 0

/-- Python dict assignment `m[k] = v`: replace in place, else append. -/
def upsertKeep (m : List (String × SearchResult)) (k : String)
    (v : SearchResult) : List (String × SearchResult) :=
  match m with
  | [] => [(k, v)]
  | kv :: t => if kv.1 = k then (kv.1, v) :: t else kv :: upsertKeep t k v

/-- The loop body of extract_unique_domains: skip listed domains, store a
first result per domain, replace only on a strictly higher score. -/
def eudStep (skip : List String) (m : List (String × SearchResult))
    (r : SearchResult) : List (String × SearchResult) :=
  if skip.contains r.domain then m
  else
    match (m.find? fun kv => kv.1 = r.domain).map (·.2) with
    | none => upsertKeep m r.domain r
    | some ex => if scoreOr0 ex < scoreOr0 r then upsertKeep m r.domain r else m

/-- extract_unique_domains: walk the results, skip the skip set, keep the
strictly higher-scored result per domain (insertion order preserved). -/
def extract_unique_domains (results : List SearchResult)
    (skip : List String) : List (String × SearchResult) :=
  results.foldl (eudStep skip) []

/-! ### Concrete inputs used by counterexamples and witnesses -/

/-- Concrete blocked tier-1 result used to discharge C1's hypotheses. -/
def demo403 : FetchResult :=
  { url := "https://example.com", status_code := 403, html := "",
    tier_used := .basic_http, cost_usd := mkRat 1 10000, blocked := true,
    captcha_detected := false }

/-- A 100-character body with no captcha marker. -/
def shortBody404 : String := String.mk (List.replicate 100 'x')

/-- A terminal (completed) job row. -/
def completedRow : JobRow :=
  { status := .completed, strategy_used := some "basic_http",
    error_message := none, cost_usd := 0, duration_ms := some 1000,
    pages_scraped := 10, completed_at := some 1700000000 }

/-- The parse of https://x.com/pricing. -/
def pricingParts : UrlParts :=
  { scheme := "https".toList, netloc := "x.com".toList,
    path := "/pricing".toList, params := [], query := [], fragment := [] }

/-- Decoded JSON-LD items realisable from one ld+json script tag: a person
with an empty email, then two email-carrying persons, the second sharing
the first one's name and the third sharing the second one's email. -/
def ldDupItems : List LdItem :=
  [ { atType := "Person", name := "A B", jobTitle := "", email := "", sameAs := "" },
    { atType := "Person", name := "A B", jobTitle := "", email := "x@y.com", sameAs := "" },
    { atType := "Person", name := "C D", jobTitle := "", email := "x@y.com", sameAs := "" } ]

/-- A sitemap body whose single loc entry fails the scrape-worthy filter. -/
def pdfOnlySitemap : String := "<loc>https://x.com/a.pdf</loc>"

/-- A sitemap body with a valid loc entry. -/
def goodSitemap : String := "<loc>https://x.com/a</loc><loc>https://x.com/b.png</loc><loc>https://x.com/c</loc>"

/-- S5 search results: example.com twice (scores 2 and 5) and acme.io. -/
def s5a : SearchResult :=
  { url := "https://example.com/1", title := "t1", snippet := "s1",
    score := some 2, domain := "example.com" }

def s5b : SearchResult :=
  { url := "https://example.com/2", title := "t2", snippet := "s2",
    score := some 5, domain := "example.com" }

def s5c : SearchResult :=
  { url := "https://acme.io/", title := "t3", snippet := "s3",
    score := some 3, domain := "acme.io" }

/-! ## Claim theorems -/

theorem hasSub_infix_iff (n h : List Char) : hasSub n h = true ↔ n <:+: h := by
  induction h with
  | nil =>
    simp [hasSub, List.isEmpty_iff, List.infix_nil]
  | cons c t ih =>
    simp only [hasSub, Bool.or_eq_true, List.isPrefixOf_iff_prefix, ih]
    constructor
    · rintro (hp | hi)
      · exact hp.isInfix
      · exact hi.trans (List.suffix_cons c t).isInfix
    · intro hinf
      rcases List.infix_cons_iff.mp hinf with hp | hi
      · exact Or.inl hp
      · exact Or.inr hi

/-- C1: if should_escalate(r) is true and the tier used is not tier 3,
get_next_tier returns the strictly later tier of the fixed chain
basic_http -> headless_browser -> headless_proxy, and
get_next_tier(headless_proxy) = none. -/
theorem escalation_progress (r : FetchResult) (t : ScrapingTier)
    (hesc : should_escalate r = true) (ht : t ≠ ScrapingTier.headless_proxy) :
    (t = ScrapingTier.basic_http →
      get_next_tier t = some ScrapingTier.headless_browser) ∧
    (t = ScrapingTier.headless_browser →
      get_next_tier t = some ScrapingTier.headless_proxy) ∧
    (∃ t2, get_next_tier t = some t2 ∧ tierIdx t < tierIdx t2) ∧
    get_next_tier ScrapingTier.headless_proxy = none := by
  cases t with
  | basic_http =>
      refine ⟨?_, ?_, ?_, ?_⟩
      · intro _; decide
      · intro h; exact nomatch h
      · exact ⟨ScrapingTier.headless_browser, by decide, by decide⟩
      · decide
  | headless_browser =>
      refine ⟨?_, ?_, ?_, ?_⟩
      · intro h; exact nomatch h
      · intro _; decide
      · exact ⟨ScrapingTier.headless_proxy, by decide, by decide⟩
      · decide
  | headless_proxy => exact absurd rfl ht

/-- Witness for C1 at the concrete blocked 403 result and tier 1. -/
theorem escalation_progress_witness :
    (ScrapingTier.basic_http = ScrapingTier.basic_http →
      get_next_tier ScrapingTier.basic_http = some ScrapingTier.headless_browser) ∧
    (ScrapingTier.basic_http = ScrapingTier.headless_browser →
      get_next_tier ScrapingTier.basic_http = some ScrapingTier.headless_proxy) ∧
    (∃ t2, get_next_tier ScrapingTier.basic_http = some t2 ∧
      tierIdx ScrapingTier.basic_http < tierIdx t2) ∧
    get_next_tier ScrapingTier.headless_proxy = none :=
  escalation_progress demo403 ScrapingTier.basic_http (by decide) (by decide)

/-- C2 counterexample: a 404 response with a 100-byte body is marked
blocked by the fetchers (len(html) < 200 is tested regardless of the
status code), while the claim's condition — short body only together with
status 200 — says not blocked. -/
theorem blocked_flag_counterexample :
    (mkFetchResult "https://example.com/p" ScrapingTier.basic_http
        (some (404, shortBody404))).blocked = true ∧
    specBlockedC2 false 404 shortBody404 = false := by
  constructor
  · rfl
  · rfl

/-- C2 amended: a fetch result is blocked exactly when status is in
{403, 429, 503}, or the body is shorter than 200 bytes regardless of the
status (a network failure yields an empty body and is therefore blocked);
captcha_detected holds exactly when the case-folded body contains one of
the six captcha markers. -/
theorem blocked_captcha_amended (url : String) (tier : ScrapingTier)
    (outcome : Option (Int × String)) :
    ((mkFetchResult url tier outcome).blocked = true ↔
      ((mkFetchResult url tier outcome).status_code = 403 ∨
       (mkFetchResult url tier outcome).status_code = 429 ∨
       (mkFetchResult url tier outcome).status_code = 503 ∨
       (mkFetchResult url tier outcome).html.length < 200)) ∧
    ((mkFetchResult url tier outcome).captcha_detected = true ↔
      (outcome ≠ none ∧ ∃ s ∈ captchaSignals,
        s.toList <:+: (mkFetchResult url tier outcome).html.toList.map lowerC)) := by
  cases outcome with
  | none =>
      constructor
      · simp [mkFetchResult]
      · simp [mkFetchResult]
  | some p =>
      obtain ⟨status, html⟩ := p
      constructor
      · simp only [mkFetchResult, fetchBlocked, Bool.or_eq_true, beq_iff_eq,
          decide_eq_true_eq]
        tauto
      · simp only [mkFetchResult, detectCaptcha, List.any_eq_true, ne_eq,
          reduceCtorEq, not_false_eq_true, true_and]
        constructor
        · rintro ⟨s, hs, hsub⟩
          exact ⟨s, hs, (hasSub_infix_iff _ _).mp hsub⟩
        · rintro ⟨s, hs, hinf⟩
          exact ⟨s, hs, (hasSub_infix_iff _ _).mpr hinf⟩

/-- C3 counterexample: update_job_status carries no terminality guard — a
subsequent call on a completed job mutates the row (here back to running
with a new duration). -/
theorem terminal_update_counterexample :
    completedRow.status = JobStatus.completed ∧
    (update_job_status completedRow
        { status := .running, duration_ms := some 2000 }).status =
      JobStatus.running ∧
    update_job_status completedRow
        { status := .running, duration_ms := some 2000 } ≠ completedRow := by
  refine ⟨rfl, rfl, ?_⟩
  intro h
  exact absurd (congrArg JobRow.status h) (by decide)

/-- C3 amended: update_job_status is an unconditional UPDATE; even when the
row is in a terminal status (completed or failed) the call is not rejected
and the row's status becomes the new argument, with every non-None field
argument applied. -/
theorem update_after_terminal_applies (row : JobRow) (a : UpdateArgs)
    (hterm : row.status = JobStatus.completed ∨ row.status = JobStatus.failed) :
    (update_job_status row a).status = a.status ∧
    (update_job_status row a).duration_ms =
      (match a.duration_ms with | some v => some v | none => row.duration_ms) := by
  exact ⟨rfl, rfl⟩

/-- Witness for the amended C3 statement at the concrete completed row. -/
theorem update_after_terminal_applies_witness :
    (update_job_status completedRow
        { status := .running, duration_ms := some 2000 }).status =
      UpdateArgs.status { status := .running, duration_ms := some 2000 } ∧
    (update_job_status completedRow
        { status := .running, duration_ms := some 2000 }).duration_ms =
      (match UpdateArgs.duration_ms { status := .running, duration_ms := some 2000 } with
        | some v => some v
        | none => completedRow.duration_ms) :=
  update_after_terminal_applies completedRow
    { status := .running, duration_ms := some 2000 } (Or.inl rfl)

/-- C4 counterexample: a job that is created, marked running, and then
fails ends with status = failed and completed_at still unset — the FAILED
transition of process_scrape_job passes no completed_at, violating
"completed_at set iff status ∈ {completed, failed}". -/
theorem completed_at_counterexample :
    (update_job_status (update_job_status freshRow runningArgs)
        (failArgs "boom" 123)).status = JobStatus.failed ∧
    (update_job_status (update_job_status freshRow runningArgs)
        (failArgs "boom" 123)).completed_at = none := by
  exact ⟨rfl, rfl⟩

/-- C4 amended: the orchestrator sets completed_at when transitioning a job
to COMPLETED, but its FAILED transition passes no completed_at, so a failed
job keeps whatever completed_at it had (none for a job that never
completed); the iff-invariant holds only for the completed side. -/
theorem completed_at_transitions (row : JobRow) (d p : Int) (c : ℚ)
    (now : Int) (msg : String) (d2 : Int) :
    ((update_job_status row (completeArgs d p c now)).status =
        JobStatus.completed ∧
     (update_job_status row (completeArgs d p c now)).completed_at =
        some now) ∧
    ((update_job_status row (failArgs msg d2)).status = JobStatus.failed ∧
     (update_job_status row (failArgs msg d2)).completed_at =
        row.completed_at) :=
  ⟨⟨rfl, rfl⟩, ⟨rfl, rfl⟩⟩

/-! ## C10: validity is not preserved by normalization -/

/-- C10: validate_and_deduplicate applies is_valid_scrape_url to the raw
URL before normalizing, so its output can contain a URL the validator
rejects: "https://x.com/doc.pdf/" passes (its path ends in a slash),
normalizes to "https://x.com/doc.pdf", and that URL is invalid. -/
theorem validity_not_preserved_by_normalization :
    validate_and_deduplicate ["https://x.com/doc.pdf/"] =
      some ["https://x.com/doc.pdf"] ∧
    is_valid_scrape_url "https://x.com/doc.pdf/" = some true ∧
    is_valid_scrape_url "https://x.com/doc.pdf" = some false := by
  refine ⟨by decide, by decide, by decide⟩

/-! ## C7: sitemap preference -/

/-- C7 counterexample: a 200 sitemap with one loc entry whose URL fails
the scrape-worthy filter leaves the sitemap set empty, so map_domain
falls through to the recursive crawler although the body has a loc. -/
theorem sitemap_preference_counterexample :
    (findLocs pdfOnlySitemap.toList).length = 1 ∧
    trySitemap 200 pdfOnlySitemap = [] ∧
    map_domain 200 pdfOnlySitemap 100 ["https://x.com/from-crawl"] =
      (["https://x.com/from-crawl"], true) := by
  refine ⟨by decide, by decide, by decide⟩

theorem dedupKeepFirst_subset {seen l : List String} {u : String}
    (h : u ∈ dedupKeepFirst seen l) : u ∈ l := by
  induction l generalizing seen with
  | nil => simpa [dedupKeepFirst] using h
  | cons x t ih =>
      unfold dedupKeepFirst at h
      split at h
      · exact List.mem_cons_of_mem x (ih h)
      · rcases List.mem_cons.mp h with h1 | h1
        · exact h1 ▸ List.mem_cons_self x t
        · exact List.mem_cons_of_mem x (ih h1)

theorem dedupKeepFirst_ne_nil {l : List String} (h : l ≠ []) :
    dedupKeepFirst [] l ≠ [] := by
  match l with
  | [] => exact absurd rfl h
  | x :: t => simp [dedupKeepFirst]

/-- C7 amended: the recursive crawler is skipped exactly when the 200
sitemap has at least one loc entry that passes the scrape-worthy filter
(and none that makes the filter raise); then the mapper returns up to
max_pages of the filtered sitemap URLs. -/
theorem sitemap_preference_amended (status : Int) (body : String)
    (limit : Nat) (crawl : List String)
    (h200 : status = 200)
    (hparse : ((findLocs body.toList).map fun cs => String.mk cs).all
        (fun u => (is_valid_scrape_url u).isSome) = true)
    (hex : ∃ u ∈ (findLocs body.toList).map fun cs => String.mk cs,
        is_valid_scrape_url u = some true) :
    (map_domain status body limit crawl).2 = false ∧
    (map_domain status body limit crawl).1 =
      (dedupKeepFirst []
        (((findLocs body.toList).map fun cs => String.mk cs).filter
          fun u => is_valid_scrape_url u = some true)).take limit ∧
    (map_domain status body limit crawl).1.length ≤ limit ∧
    ∀ u ∈ (map_domain status body limit crawl).1,
      (u ∈ (findLocs body.toList).map fun cs => String.mk cs) ∧
        is_valid_scrape_url u = some true := by
  subst h200
  obtain ⟨u0, hu0, hvu0⟩ := hex
  have hsite : trySitemap 200 body =
      dedupKeepFirst []
        (((findLocs body.toList).map fun cs => String.mk cs).filter
          fun u => is_valid_scrape_url u = some true) := by
    unfold trySitemap
    rw [if_pos (by decide), if_pos hparse]
  have hfil : u0 ∈ ((findLocs body.toList).map fun cs => String.mk cs).filter
      (fun u => is_valid_scrape_url u = some true) :=
    List.mem_filter.mpr ⟨hu0, by simp [hvu0]⟩
  have hne : trySitemap 200 body ≠ [] := by
    rw [hsite]
    exact dedupKeepFirst_ne_nil (by intro hnil; rw [hnil] at hfil; exact absurd hfil (by simp))
  have hmap : map_domain 200 body limit crawl =
      ((trySitemap 200 body).take limit, false) := by
    unfold map_domain
    rw [if_neg (by simpa [List.isEmpty_iff] using hne)]
  rw [hmap, hsite]
  refine ⟨rfl, rfl, List.length_take_le _ _, ?_⟩
  intro u hu
  have h1 := dedupKeepFirst_subset (List.mem_of_mem_take hu)
  have h2 := List.mem_filter.mp h1
  exact ⟨h2.1, by simpa using h2.2⟩

/-- Witness for the amended C7 statement: a sitemap with valid entries
skips the crawler and returns their deduplicated, capped list. -/
theorem sitemap_preference_amended_witness :
    (map_domain 200 goodSitemap 100 ["https://x.com/from-crawl"]).2 = false ∧
    (map_domain 200 goodSitemap 100 ["https://x.com/from-crawl"]).1 =
      (dedupKeepFirst []
        (((findLocs goodSitemap.toList).map fun cs => String.mk cs).filter
          fun u => is_valid_scrape_url u = some true)).take 100 ∧
    (map_domain 200 goodSitemap 100 ["https://x.com/from-crawl"]).1.length ≤ 100 ∧
    ∀ u ∈ (map_domain 200 goodSitemap 100 ["https://x.com/from-crawl"]).1,
      (u ∈ (findLocs goodSitemap.toList).map fun cs => String.mk cs) ∧
        is_valid_scrape_url u = some true :=
  sitemap_preference_amended 200 goodSitemap 100 ["https://x.com/from-crawl"]
    rfl (by decide) ⟨"https://x.com/a", by decide, by decide⟩

/-! ## C6: contact deduplication -/

/-- C6 counterexample: three JSON-LD persons — "A B" with an empty email,
"A B" with x@y.com, "C D" with x@y.com — make extract_people return two
records that share the same non-empty case-folded email: the second
person merges into the first by name, which installs its email without
registering it, so the third person is inserted as a new record. -/
theorem extract_people_duplicate_email :
    ((extract_people (fromJsonLd ldDupItems) [] []).map fun p =>
      strLower p.email) = ["x@y.com", "x@y.com"] ∧
    (extract_people (fromJsonLd ldDupItems) [] []).length = 2 ∧
    ("x@y.com" : String) ≠ "" := by
  refine ⟨by decide, by decide, by decide⟩

theorem strLower_ne_empty {s : String} (h : s ≠ "") : strLower s ≠ "" := by
  intro hc
  apply h
  have h2 : s.toList.map lowerC = [] := by
    have := congrArg String.toList hc
    simpa [strLower] using this
  have h3 : s.toList = [] := List.map_eq_nil_iff.mp h2
  cases s with
  | mk data =>
      have h4 : data = [] := h3
      subst h4
      rfl

theorem mergePerson_email {old p : Person} (h : old.email ≠ "") :
    (mergePerson old p).email = old.email := by
  simp only [mergePerson, mergeField]
  rw [if_neg]
  simp [h]

theorem list_set_self {α} {l : List α} {i : Nat} {a : α}
    (h : l[i]? = some a) : l.set i a = l := by
  induction l generalizing i with
  | nil => simp at h
  | cons x t ih =>
      cases i with
      | zero => simp at h; simp [h]
      | succ n =>
          simp only [List.getElem?_cons_succ] at h
          simp [List.set_cons_succ, ih h]

theorem lookupIdx_none_iff {m : List (String × Nat)} {k : String} :
    lookupIdx m k = none ↔ k ∉ m.map Prod.fst := by
  unfold lookupIdx
  rw [Option.map_eq_none', List.find?_eq_none]
  constructor
  · intro h hk
    obtain ⟨kv, hkv, hfst⟩ := List.mem_map.mp hk
    exact absurd (by simpa using hfst) (h kv hkv)
  · intro h kv hkv
    simp only [decide_eq_true_eq]
    intro he
    exact h (List.mem_map.mpr ⟨kv, hkv, he⟩)

/-- One dedup step preserves: every stored record has a non-empty email
registered in seen_emails, and stored emails are pairwise distinct. -/
theorem dedupStep_email_inv (st : DedupState) (p : Person)
    (hp : p.email ≠ "")
    (h1 : ∀ q ∈ st.result, q.email ≠ "" ∧
      strLower q.email ∈ st.seenEmails.map Prod.fst)
    (h2 : st.result.Pairwise fun a b => strLower a.email ≠ strLower b.email) :
    (∀ q ∈ (dedupStep st p).result, q.email ≠ "" ∧
      strLower q.email ∈ (dedupStep st p).seenEmails.map Prod.fst) ∧
    (dedupStep st p).result.Pairwise
      (fun a b => strLower a.email ≠ strLower b.email) := by
  have hmerge : ∀ idx old, st.result[idx]? = some old →
      ((∀ q ∈ st.result.set idx (mergePerson old p), q.email ≠ "" ∧
        strLower q.email ∈ st.seenEmails.map Prod.fst) ∧
      (st.result.set idx (mergePerson old p)).Pairwise
        (fun a b => strLower a.email ≠ strLower b.email)) := by
    intro idx old hidx
    have hold : old ∈ st.result := List.getElem?_mem hidx
    have holdne : old.email ≠ "" := (h1 old hold).1
    constructor
    · intro q hq
      rcases List.mem_or_eq_of_mem_set hq with hq1 | hq1
      · exact h1 q hq1
      · subst hq1
        rw [mergePerson_email holdne]
        exact h1 old hold
    · have hmap : (st.result.set idx (mergePerson old p)).map
          (fun q => strLower q.email) = st.result.map fun q => strLower q.email := by
        rw [List.map_set, mergePerson_email holdne]
        apply list_set_self
        simp [List.getElem?_map, hidx]
      have hpm2 : ((st.result.set idx (mergePerson old p)).map
          fun q => strLower q.email).Pairwise (fun a b => a ≠ b) := by
        rw [hmap]
        exact (List.pairwise_map).mpr h2
      exact (List.pairwise_map).mp hpm2
  simp only [dedupStep]
  split
  · next hcond =>
      cases hll : lookupIdx st.seenEmails (strLower p.email) with
      | some idx =>
          simp only [hll]
          cases hrr : st.result[idx]? with
          | some old =>
              simp only [hrr]
              exact hmerge idx old hrr
          | none =>
              simp only [hrr]
              exact ⟨h1, h2⟩
      | none =>
          simp only [hll]
          exact ⟨h1, h2⟩
  · next hcond =>
      split
      · next hcond2 =>
          cases hll : lookupIdx st.seenNames (nameKey p) with
          | some idx =>
              simp only [hll]
              cases hrr : st.result[idx]? with
              | some old =>
                  simp only [hrr]
                  exact hmerge idx old hrr
              | none =>
                  simp only [hrr]
                  exact ⟨h1, h2⟩
          | none =>
              simp only [hll]
              exact ⟨h1, h2⟩
      · next hcond2 =>
          have hemail : strLower p.email ≠ "" := strLower_ne_empty hp
          have hnotseen : lookupIdx st.seenEmails (strLower p.email) = none := by
            apply Option.not_isSome_iff_eq_none.mp
            intro hs
            exact hcond ⟨hemail, hs⟩
          have hnm : strLower p.email ∉ st.seenEmails.map Prod.fst :=
            lookupIdx_none_iff.mp hnotseen
          rw [if_pos hemail]
          constructor
          · intro q hq
            rcases List.mem_append.mp hq with hq1 | hq1
            · refine ⟨(h1 q hq1).1, ?_⟩
              rw [List.map_append]
              exact List.mem_append_left _ (h1 q hq1).2
            · have hqp : q = p := by simpa using hq1
              subst hqp
              refine ⟨hp, ?_⟩
              rw [List.map_append]
              exact List.mem_append_right _ (by simp)
          · rw [List.pairwise_append]
            refine ⟨h2, by simp, ?_⟩
            intro a ha b hb
            have hbp : b = p := by simpa using hb
            subst hbp
            intro hab
            exact hnm (hab ▸ (h1 a ha).2)

/-- C6 amended: when every extracted person record carries a non-empty
email, no two records of the deduplicated output share a case-folded
email (in general a name-based merge can install an email into an
existing record without registering it, so the guarantee fails — see the
counterexample). -/
theorem extract_people_emails_nodup (s1 s2 s3 : List Person)
    (hall : ∀ p ∈ s1 ++ s2 ++ (if (s1 ++ s2).isEmpty then s3 else []),
      p.email ≠ "") :
    (extract_people s1 s2 s3).Pairwise
      (fun a b => strLower a.email ≠ strLower b.email) ∧
    ∀ p ∈ extract_people s1 s2 s3, p.email ≠ "" := by
  unfold extract_people deduplicate
  suffices h : ∀ (people : List Person) (st : DedupState),
      (∀ p ∈ people, p.email ≠ "") →
      (∀ q ∈ st.result, q.email ≠ "" ∧
        strLower q.email ∈ st.seenEmails.map Prod.fst) →
      st.result.Pairwise (fun a b => strLower a.email ≠ strLower b.email) →
      ((people.foldl dedupStep st).result.Pairwise
        (fun a b => strLower a.email ≠ strLower b.email) ∧
      ∀ q ∈ (people.foldl dedupStep st).result, q.email ≠ "") by
    exact h _ ⟨[], [], []⟩ hall (by simp) (by simp)
  intro people
  induction people with
  | nil =>
      intro st _ hst1 hst2
      exact ⟨hst2, fun q hq => (hst1 q hq).1⟩
  | cons p t ih =>
      intro st hall1 hst1 hst2
      have hstep := dedupStep_email_inv st p (hall1 p (by simp)) hst1 hst2
      exact ih (dedupStep st p)
        (fun q hq => hall1 q (List.mem_cons_of_mem p hq)) hstep.1 hstep.2

/-- Witness for the amended C6 statement on two all-email records sharing
a name: the output has pairwise distinct emails. -/
theorem extract_people_emails_nodup_witness :
    (extract_people
        [{ first_name := "A", last_name := some "B", job_title := "",
           email := "a@y.com", linkedin_url := "", source := "json_ld" },
         { first_name := "A", last_name := some "B", job_title := "",
           email := "b@y.com", linkedin_url := "", source := "json_ld" }]
        [] []).Pairwise (fun a b => strLower a.email ≠ strLower b.email) ∧
    ∀ p ∈ extract_people
        [{ first_name := "A", last_name := some "B", job_title := "",
           email := "a@y.com", linkedin_url := "", source := "json_ld" },
         { first_name := "A", last_name := some "B", job_title := "",
           email := "b@y.com", linkedin_url := "", source := "json_ld" }]
        [] [], p.email ≠ "" :=
  extract_people_emails_nodup _ _ _ (by decide)

/-! ## C9: discovery dedupe -/

theorem upsertKeep_not_mem {m : List (String × SearchResult)} {k : String}
    {v : SearchResult} (h : k ∉ m.map Prod.fst) :
    upsertKeep m k v = m ++ [(k, v)] := by
  induction m with
  | nil => rfl
  | cons kv t ih =>
      have hne : kv.1 ≠ k := by
        intro he
        exact h (by simp [he])
      unfold upsertKeep
      rw [if_neg hne, ih (by intro hm; exact h (by simp [hm]))]
      rfl

theorem upsertKeep_keys_mem {m : List (String × SearchResult)} {k : String}
    {v : SearchResult} (h : k ∈ m.map Prod.fst) :
    (upsertKeep m k v).map Prod.fst = m.map Prod.fst := by
  induction m with
  | nil => simp at h
  | cons kv t ih =>
      unfold upsertKeep
      by_cases he : kv.1 = k
      · rw [if_pos he]; simp
      · rw [if_neg he]
        have hk : k ∈ t.map Prod.fst := by
          rcases List.mem_map.mp h with ⟨kv2, hkv2, hf⟩
          rcases List.mem_cons.mp hkv2 with h1 | h1
          · exact absurd (h1 ▸ hf) he
          · exact List.mem_map.mpr ⟨kv2, h1, hf⟩
        simp [ih hk]

theorem upsertKeep_mem {m : List (String × SearchResult)} {k : String}
    {v : SearchResult} (hnd : (m.map Prod.fst).Nodup)
    {kv : String × SearchResult} (h : kv ∈ upsertKeep m k v) :
    kv = (k, v) ∨ (kv ∈ m ∧ kv.1 ≠ k) := by
  induction m with
  | nil =>
      left
      simpa [upsertKeep] using h
  | cons kv0 t ih =>
      unfold upsertKeep at h
      by_cases he : kv0.1 = k
      · rw [if_pos he] at h
        rcases List.mem_cons.mp h with h1 | h1
        · left; rw [h1, he]
        · right
          refine ⟨List.mem_cons_of_mem kv0 h1, ?_⟩
          have hnd2 : kv0.1 ∉ t.map Prod.fst ∧ (t.map Prod.fst).Nodup := by
            rw [List.map_cons] at hnd
            exact List.nodup_cons.mp hnd
          intro hc
          exact hnd2.1 (he ▸ hc ▸ List.mem_map.mpr ⟨kv, h1, rfl⟩)
      · rw [if_neg he] at h
        have hnd2 : kv0.1 ∉ t.map Prod.fst ∧ (t.map Prod.fst).Nodup := by
          rw [List.map_cons] at hnd
          exact List.nodup_cons.mp hnd
        rcases List.mem_cons.mp h with h1 | h1
        · right
          refine ⟨h1 ▸ List.mem_cons_self kv0 t, h1 ▸ he⟩
        · rcases ih hnd2.2 h1 with h2 | h2
          · exact Or.inl h2
          · exact Or.inr ⟨List.mem_cons_of_mem kv0 h2.1, h2.2⟩

theorem nodup_keys_unique {m : List (String × SearchResult)}
    (hnd : (m.map Prod.fst).Nodup) {kv kv2 : String × SearchResult}
    (h1 : kv ∈ m) (h2 : kv2 ∈ m) (he : kv.1 = kv2.1) : kv = kv2 := by
  induction m with
  | nil => simp at h1
  | cons kv0 t ih =>
      have hnd2 : kv0.1 ∉ t.map Prod.fst ∧ (t.map Prod.fst).Nodup := by
        rw [List.map_cons] at hnd
        exact List.nodup_cons.mp hnd
      rcases List.mem_cons.mp h1 with ha | ha
      · rcases List.mem_cons.mp h2 with hb | hb
        · rw [ha, hb]
        · exfalso
          exact hnd2.1 (ha ▸ he ▸ List.mem_map.mpr ⟨kv2, hb, rfl⟩)
      · rcases List.mem_cons.mp h2 with hb | hb
        · exfalso
          exact hnd2.1 (hb ▸ he.symm ▸ List.mem_map.mpr ⟨kv, ha, rfl⟩)
        · exact ih hnd2.2 ha hb

/-- One step of the discovery dedupe preserves its invariant: unique keys,
each entry a seen result of its own domain not in the skip set, carrying a
maximal score; every non-skipped seen domain has an entry. -/
theorem eudStep_inv (skip : List String) (m : List (String × SearchResult))
    (processed : List SearchResult) (r : SearchResult)
    (h1 : (m.map Prod.fst).Nodup)
    (h2 : ∀ kv ∈ m, kv.2 ∈ processed ∧ kv.2.domain = kv.1 ∧
      skip.contains kv.1 = false ∧
      ∀ q ∈ processed, q.domain = kv.1 → scoreOr0 q ≤ scoreOr0 kv.2)
    (h3 : ∀ q ∈ processed, skip.contains q.domain = false →
      q.domain ∈ m.map Prod.fst) :
    ((eudStep skip m r).map Prod.fst).Nodup ∧
    (∀ kv ∈ eudStep skip m r, kv.2 ∈ processed ++ [r] ∧ kv.2.domain = kv.1 ∧
      skip.contains kv.1 = false ∧
      ∀ q ∈ processed ++ [r], q.domain = kv.1 → scoreOr0 q ≤ scoreOr0 kv.2) ∧
    (∀ q ∈ processed ++ [r], skip.contains q.domain = false →
      q.domain ∈ (eudStep skip m r).map Prod.fst) := by
  unfold eudStep
  by_cases hskip : skip.contains r.domain
  · rw [if_pos hskip]
    refine ⟨h1, ?_, ?_⟩
    · intro kv hkv
      obtain ⟨ha, hb, hc, hd⟩ := h2 kv hkv
      refine ⟨List.mem_append_left _ ha, hb, hc, ?_⟩
      intro q hq hdq
      rcases List.mem_append.mp hq with hq1 | hq1
      · exact hd q hq1 hdq
      · have hqr : q = r := by simpa using hq1
        subst hqr
        rw [hdq, hc] at hskip
        exact absurd hskip (by simp)
    · intro q hq hqs
      rcases List.mem_append.mp hq with hq1 | hq1
      · exact h3 q hq1 hqs
      · have hqr : q = r := by simpa using hq1
        subst hqr
        rw [hqs] at hskip
        exact absurd hskip (by simp)
  · rw [if_neg hskip]
    have hskipf : skip.contains r.domain = false := by
      simpa using hskip
    cases hfind : (m.find? fun kv => kv.1 = r.domain).map (·.2) with
    | none =>
        simp only [hfind]
        have hfind2 : m.find? (fun kv => kv.1 = r.domain) = none := by
          cases hff : m.find? fun kv => kv.1 = r.domain with
          | none => rfl
          | some x => rw [hff] at hfind; simp at hfind
        have hknot : r.domain ∉ m.map Prod.fst := by
          intro hk
          rcases List.mem_map.mp hk with ⟨kv, hkv, hf⟩
          have := List.find?_eq_none.mp hfind2 kv hkv
          simp [hf] at this
        rw [upsertKeep_not_mem hknot]
        refine ⟨?_, ?_, ?_⟩
        · rw [List.map_append]
          simp only [List.map_cons, List.map_nil]
          rw [List.nodup_append]
          exact ⟨h1, by simp, by simpa using fun hk => hknot hk⟩
        · intro kv hkv
          rcases List.mem_append.mp hkv with hkv1 | hkv1
          · obtain ⟨ha, hb, hc, hd⟩ := h2 kv hkv1
            refine ⟨List.mem_append_left _ ha, hb, hc, ?_⟩
            intro q hq hdq
            rcases List.mem_append.mp hq with hq1 | hq1
            · exact hd q hq1 hdq
            · have hqr : q = r := by simpa using hq1
              subst hqr
              exfalso
              apply hknot
              rw [hdq]
              exact List.mem_map.mpr ⟨kv, hkv1, rfl⟩
          · have hkvr : kv = (r.domain, r) := by simpa using hkv1
            subst hkvr
            refine ⟨List.mem_append_right _ (by simp), rfl, hskipf, ?_⟩
            intro q hq hdq
            rcases List.mem_append.mp hq with hq1 | hq1
            · exfalso
              have := h3 q hq1 (by rw [hdq]; exact hskipf)
              rw [hdq] at this
              exact hknot this
            · have hqr : q = r := by simpa using hq1
              subst hqr
              exact le_refl _
        · intro q hq hqs
          rw [List.map_append]
          rcases List.mem_append.mp hq with hq1 | hq1
          · exact List.mem_append_left _ (h3 q hq1 hqs)
          · have hqr : q = r := by simpa using hq1
            subst hqr
            exact List.mem_append_right _ (by simp)
    | some ex =>
        simp only [hfind]
        obtain ⟨exkv, hexfind, hexv⟩ : ∃ exkv,
            m.find? (fun kv => kv.1 = r.domain) = some exkv ∧ exkv.2 = ex := by
          cases hff : m.find? fun kv => kv.1 = r.domain with
          | none => rw [hff] at hfind; simp at hfind
          | some x =>
              rw [hff] at hfind
              exact ⟨x, rfl, by simpa using hfind⟩
        have hexmem : exkv ∈ m := List.mem_of_find?_eq_some hexfind
        have hexkey : exkv.1 = r.domain := by
          have := List.find?_some hexfind
          simpa using this
        have hkin : r.domain ∈ m.map Prod.fst :=
          hexkey ▸ List.mem_map.mpr ⟨exkv, hexmem, rfl⟩
        by_cases hlt : scoreOr0 ex < scoreOr0 r
        · rw [if_pos hlt]
          refine ⟨?_, ?_, ?_⟩
          · rw [upsertKeep_keys_mem hkin]
            exact h1
          · intro kv hkv
            rcases upsertKeep_mem h1 hkv with hkv1 | hkv1
            · subst hkv1
              refine ⟨List.mem_append_right _ (by simp), rfl, hskipf, ?_⟩
              intro q hq hdq
              rcases List.mem_append.mp hq with hq1 | hq1
              · have hle := (h2 exkv hexmem).2.2.2 q hq1 (by rw [hdq, hexkey])
                rw [hexv] at hle
                exact le_of_lt (lt_of_le_of_lt hle hlt)
              · have hqr : q = r := by simpa using hq1
                subst hqr
                exact le_refl _
            · obtain ⟨ha, hb, hc, hd⟩ := h2 kv hkv1.1
              refine ⟨List.mem_append_left _ ha, hb, hc, ?_⟩
              intro q hq hdq
              rcases List.mem_append.mp hq with hq1 | hq1
              · exact hd q hq1 hdq
              · have hqr : q = r := by simpa using hq1
                subst hqr
                exact absurd hdq hkv1.2.symm
          · intro q hq hqs
            rw [upsertKeep_keys_mem hkin]
            rcases List.mem_append.mp hq with hq1 | hq1
            · exact h3 q hq1 hqs
            · have hqr : q = r := by simpa using hq1
              subst hqr
              exact hkin
        · rw [if_neg hlt]
          refine ⟨h1, ?_, ?_⟩
          · intro kv hkv
            obtain ⟨ha, hb, hc, hd⟩ := h2 kv hkv
            refine ⟨List.mem_append_left _ ha, hb, hc, ?_⟩
            intro q hq hdq
            rcases List.mem_append.mp hq with hq1 | hq1
            · exact hd q hq1 hdq
            · have hqr : q = r := by simpa using hq1
              subst hqr
              have hkveq : kv = exkv :=
                nodup_keys_unique h1 hkv hexmem (by rw [hexkey, ← hdq])
              rw [hkveq, hexv]
              exact le_of_not_lt hlt
          · intro q hq hqs
            rcases List.mem_append.mp hq with hq1 | hq1
            · exact h3 q hq1 hqs
            · have hqr : q = r := by simpa using hq1
              subst hqr
              exact hkin

theorem eud_foldl_inv (skip : List String) :
    ∀ (results : List SearchResult) (m : List (String × SearchResult))
      (processed : List SearchResult),
      (m.map Prod.fst).Nodup →
      (∀ kv ∈ m, kv.2 ∈ processed ∧ kv.2.domain = kv.1 ∧
        skip.contains kv.1 = false ∧
        ∀ q ∈ processed, q.domain = kv.1 → scoreOr0 q ≤ scoreOr0 kv.2) →
      (∀ q ∈ processed, skip.contains q.domain = false →
        q.domain ∈ m.map Prod.fst) →
      (((results.foldl (eudStep skip) m).map Prod.fst).Nodup ∧
      (∀ kv ∈ results.foldl (eudStep skip) m,
        kv.2 ∈ processed ++ results ∧ kv.2.domain = kv.1 ∧
        skip.contains kv.1 = false ∧
        ∀ q ∈ processed ++ results, q.domain = kv.1 →
          scoreOr0 q ≤ scoreOr0 kv.2) ∧
      (∀ q ∈ processed ++ results, skip.contains q.domain = false →
        q.domain ∈ (results.foldl (eudStep skip) m).map Prod.fst)) := by
  intro results
  induction results with
  | nil =>
      intro m processed h1 h2 h3
      simp only [List.foldl_nil, List.append_nil]
      exact ⟨h1, h2, h3⟩
  | cons r t ih =>
      intro m processed h1 h2 h3
      have hstep := eudStep_inv skip m processed r h1 h2 h3
      have hmain := ih (eudStep skip m r) (processed ++ [r])
        hstep.1 hstep.2.1 hstep.2.2
      have hl : (processed ++ [r]) ++ t = processed ++ r :: t := by
        rw [List.append_assoc]
        rfl
      rw [hl] at hmain
      exact hmain

/-- C9: extract_unique_domains keeps exactly one entry per distinct
non-skipped domain, the kept entry is an input result of that domain with
maximal score (missing score counting as 0), and on the S5 input
[(example.com, 2), (example.com, 5), (acme.io, 3)] with no skip list it
returns two entries with example.com carrying the score-5 result. -/
theorem extract_unique_domains_spec (results : List SearchResult)
    (skip : List String) :
    (((extract_unique_domains results skip).map Prod.fst).Nodup ∧
    (∀ kv ∈ extract_unique_domains results skip,
      kv.2 ∈ results ∧ kv.2.domain = kv.1 ∧ skip.contains kv.1 = false ∧
      ∀ q ∈ results, q.domain = kv.1 → scoreOr0 q ≤ scoreOr0 kv.2) ∧
    (∀ q ∈ results, skip.contains q.domain = false →
      q.domain ∈ (extract_unique_domains results skip).map Prod.fst)) ∧
    extract_unique_domains [s5a, s5b, s5c] [] =
      [("example.com", s5b), ("acme.io", s5c)] := by
  constructor
  · have := eud_foldl_inv skip results [] [] (by simp) (by simp) (by simp)
    simpa [extract_unique_domains] using this
  · decide

/-! ## C5: URL classification -/

theorem find?_of_take {α} (p : α → Bool) (l : List α) (i : Nat)
    (hi : i < l.length) (hhit : p (l.get ⟨i, hi⟩) = true)
    (hmiss : ∀ x ∈ l.take i, p x = false) :
    l.find? p = some (l.get ⟨i, hi⟩) := by
  induction l generalizing i with
  | nil => simp at hi
  | cons x t ih =>
      cases i with
      | zero =>
          have hx : p x = true := hhit
          rw [List.find?, hx]
          rfl
      | succ n =>
          have hx : p x = false := hmiss x (by simp)
          rw [List.find?]
          rw [hx]
          simp only [List.get_cons_succ] at hhit ⊢
          exact ih n (by simpa using hi) hhit
            (fun y hy => hmiss y (by
              simp only [List.take_succ_cons, List.mem_cons]
              right
              exact hy))

/-- C5: classify_url is a function of the URL alone (one record per
parseable URL); the first rule, in the fixed order pricing, contact,
resource, blog, team/about-as-contact, whose regex list hits the path
wins with confidence 0.8; a URL matching no rule gets blog_url with
confidence 0.2; and the three S4 examples classify as pricing, contact
and blog_url. -/
theorem classify_url_spec (u : String) (p : UrlParts)
    (hp : urlparseOpt u.toList [] = some p) :
    ((∃ c, classify_url u = some c) ∧
    (∀ i, ∀ hi : i < classifyRules.length,
      ruleHits (p.path.map lowerC) (classifyRules.get ⟨i, hi⟩) = true →
      (∀ rule ∈ classifyRules.take i, ruleHits (p.path.map lowerC) rule = false) →
      classify_url u =
        some (UrlClass.mk u (dataTypeName (classifyRules.get ⟨i, hi⟩).1)
          (mkRat 4 5))) ∧
    ((∀ rule ∈ classifyRules, ruleHits (p.path.map lowerC) rule = false) →
      classify_url u = some (UrlClass.mk u "blog_url" (mkRat 1 5)))) ∧
    (classify_url "https://x.com/pricing" =
      some (UrlClass.mk "https://x.com/pricing" "pricing" (mkRat 4 5)) ∧
    classify_url "https://x.com/about/team" =
      some (UrlClass.mk "https://x.com/about/team" "contact" (mkRat 4 5)) ∧
    classify_url "https://x.com/2024/01/post" =
      some (UrlClass.mk "https://x.com/2024/01/post" "blog_url" (mkRat 4 5))) := by
  have hbase : ∀ res, classifyRules.find? (ruleHits (p.path.map lowerC)) = res →
      classify_url u = some (match res with
        | some rule => UrlClass.mk u (dataTypeName rule.1) (mkRat 4 5)
        | none => UrlClass.mk u "blog_url" (mkRat 1 5)) := by
    intro res hres
    simp only [classify_url, hp, Option.map_some']
    rw [hres]
  refine ⟨⟨?_, ?_, ?_⟩, by decide, by decide, by decide⟩
  · cases hf : classifyRules.find? (ruleHits (p.path.map lowerC)) with
    | some rule => exact ⟨_, hbase _ hf⟩
    | none => exact ⟨_, hbase _ hf⟩
  · intro i hi hhit hmiss
    have hf := find?_of_take (ruleHits (p.path.map lowerC)) classifyRules i hi
      hhit hmiss
    simpa using hbase _ hf
  · intro hnone
    have hf : classifyRules.find? (ruleHits (p.path.map lowerC)) = none :=
      List.find?_eq_none.mpr fun x hx => by simp [hnone x hx]
    simpa using hbase _ hf

/-- Witness for C5 at https://x.com/pricing: the pricing rule is the
first hit, so the record carries data_type pricing at confidence 0.8. -/
theorem classify_url_spec_witness :
    classify_url "https://x.com/pricing" =
      some (UrlClass.mk "https://x.com/pricing" "pricing" (mkRat 4 5)) := by
  have h := (classify_url_spec "https://x.com/pricing" pricingParts
    (by decide)).1.2.1 0 (by decide) (by decide) (by decide)
  exact h.trans (by decide)

/-! ## C8: idempotence of URL normalization -/

/-- C8 counterexample: normalization is not idempotent.  On
http://h/a/;b/;c the params split takes the first `;` after the last `/`,
rstrip removes the trailing slash of the path part, and re-joining yields
http://h/a/;b;c; parsing that again finds a different last slash, so a
second normalization gives http://h/a;b;c (behaviour verified against
CPython 3.11 urllib.parse). -/
theorem normalize_url_not_idempotent :
    normalize_url "http://h/a/;b/;c" none = some "http://h/a/;b;c" ∧
    normalize_url "http://h/a/;b;c" none = some "http://h/a;b;c" ∧
    ("http://h/a/;b;c" : String) ≠ "http://h/a;b;c" := by
  refine ⟨by decide, by decide, by decide⟩

/-! ### Character-level lemmas for the amended idempotence proof -/

theorem toNat_ofNat_small {n : Nat} (h : n < 55296) :
    (Char.ofNat n).toNat = n := by
  rw [Char.ofNat, dif_pos (Or.inl (by omega))]
  simp [Char.ofNatAux, Char.toNat, UInt32.toNat, BitVec.toNat_ofNatLt]

theorem lowerC_toNat (c : Char) :
    (lowerC c).toNat =
      if 65 ≤ c.toNat ∧ c.toNat ≤ 90 then c.toNat + 32 else c.toNat := by
  unfold lowerC
  split
  · next h => exact toNat_ofNat_small (by omega)
  · rfl

theorem lowerC_eq_self (c : Char) (h : ¬(65 ≤ c.toNat ∧ c.toNat ≤ 90)) :
    lowerC c = c := by
  unfold lowerC
  rw [if_neg h]

theorem lowerC_idem (c : Char) : lowerC (lowerC c) = lowerC c := by
  apply lowerC_eq_self
  rw [lowerC_toNat]
  by_cases h : 65 ≤ c.toNat ∧ c.toNat ≤ 90
  · rw [if_pos h]; omega
  · rw [if_neg h]; exact h

theorem lowerC_eq_special {c d : Char} (hd1 : ¬(65 ≤ d.toNat ∧ d.toNat ≤ 90))
    (hd2 : ¬(97 ≤ d.toNat ∧ d.toNat ≤ 122)) : lowerC c = d ↔ c = d := by
  by_cases h : 65 ≤ c.toNat ∧ c.toNat ≤ 90
  · have h1 : (lowerC c).toNat = c.toNat + 32 := by rw [lowerC_toNat, if_pos h]
    constructor
    · intro he; exfalso; apply hd2; rw [← he, h1]; omega
    · intro he; exfalso; apply hd1; rw [← he]; omega
  · rw [lowerC_eq_self c h]

theorem isAlphaChar_lowerC (c : Char) : isAlphaChar (lowerC c) = isAlphaChar c := by
  have ht := lowerC_toNat c
  unfold isAlphaChar
  by_cases h : 65 ≤ c.toNat ∧ c.toNat ≤ 90
  · rw [if_pos h] at ht
    rw [Bool.eq_iff_iff]
    simp only [Bool.or_eq_true, Bool.and_eq_true, decide_eq_true_eq, ht]
    omega
  · rw [if_neg h] at ht
    rw [ht]

theorem isDigitChar_lowerC (c : Char) : isDigitChar (lowerC c) = isDigitChar c := by
  have ht := lowerC_toNat c
  unfold isDigitChar
  by_cases h : 65 ≤ c.toNat ∧ c.toNat ≤ 90
  · rw [if_pos h] at ht
    rw [Bool.eq_iff_iff]
    simp only [Bool.and_eq_true, decide_eq_true_eq, ht]
    omega
  · rw [if_neg h] at ht
    rw [ht]

theorem beq_lowerC_special (c : Char) (d : Char)
    (hd1 : ¬(65 ≤ d.toNat ∧ d.toNat ≤ 90))
    (hd2 : ¬(97 ≤ d.toNat ∧ d.toNat ≤ 122)) :
    (lowerC c == d) = (c == d) := by
  rw [Bool.eq_iff_iff]
  simp only [beq_iff_eq]
  exact lowerC_eq_special hd1 hd2

theorem isSchemeChar_lowerC (c : Char) :
    isSchemeChar (lowerC c) = isSchemeChar c := by
  unfold isSchemeChar
  rw [isAlphaChar_lowerC, isDigitChar_lowerC]
  rw [beq_lowerC_special c '+' (by decide) (by decide)]
  rw [beq_lowerC_special c '-' (by decide) (by decide)]
  rw [beq_lowerC_special c '.' (by decide) (by decide)]

theorem isNetlocEnd_lowerC (c : Char) :
    isNetlocEnd (lowerC c) = isNetlocEnd c := by
  unfold isNetlocEnd
  rw [beq_lowerC_special c '/' (by decide) (by decide)]
  rw [beq_lowerC_special c '?' (by decide) (by decide)]
  rw [beq_lowerC_special c '#' (by decide) (by decide)]

theorem map_lowerC_idem (l : List Char) :
    (l.map lowerC).map lowerC = l.map lowerC := by
  rw [List.map_map]
  exact List.map_congr_left fun c _ => lowerC_idem c

theorem mem_map_lowerC_special {l : List Char} {d : Char}
    (hd1 : ¬(65 ≤ d.toNat ∧ d.toNat ≤ 90))
    (hd2 : ¬(97 ≤ d.toNat ∧ d.toNat ≤ 122)) :
    d ∈ l.map lowerC ↔ d ∈ l := by
  rw [List.mem_map]
  constructor
  · rintro ⟨a, ha, he⟩
    rw [(lowerC_eq_special hd1 hd2).mp he] at ha
    exact ha
  · intro hd
    exact ⟨d, hd, (lowerC_eq_special hd1 hd2).mpr rfl⟩

theorem bracketOk_map_lowerC (n : List Char) :
    bracketOk (n.map lowerC) = bracketOk n := by
  unfold bracketOk
  have h1 : (n.map lowerC).contains '[' = n.contains '[' := by
    rw [Bool.eq_iff_iff, List.elem_iff, List.elem_iff]
    exact mem_map_lowerC_special (by decide) (by decide)
  have h2 : (n.map lowerC).contains ']' = n.contains ']' := by
    rw [Bool.eq_iff_iff, List.elem_iff, List.elem_iff]
    exact mem_map_lowerC_special (by decide) (by decide)
  rw [h1, h2]

/-! ### List-splitting lemmas -/

theorem sof_fst (ch : Char) (l : List Char) :
    (splitOnFirst ch l).1 = l.takeWhile (· ≠ ch) := by
  induction l with
  | nil => rfl
  | cons c t ih =>
      unfold splitOnFirst
      by_cases h : c = ch
      · rw [if_pos h]
        rw [List.takeWhile_cons, if_neg (by simpa using h)]
      · rw [if_neg h]
        rw [List.takeWhile_cons, if_pos (by simpa using h)]
        simpa using ih

theorem sof_not_mem {ch : Char} {l : List Char} (h : ch ∉ l) :
    splitOnFirst ch l = (l, []) := by
  induction l with
  | nil => rfl
  | cons c t ih =>
      unfold splitOnFirst
      rw [if_neg (by intro he; exact h (he ▸ List.mem_cons_self c t))]
      rw [ih (fun hm => h (List.mem_cons_of_mem c hm))]

theorem sof_append {ch : Char} {a b : List Char} (h : ch ∉ a) :
    splitOnFirst ch (a ++ ch :: b) = (a, b) := by
  induction a with
  | nil =>
      simp only [List.nil_append]
      unfold splitOnFirst
      rw [if_pos rfl]
  | cons c t ih =>
      simp only [List.cons_append]
      unfold splitOnFirst
      rw [if_neg (by intro he; exact h (he ▸ List.mem_cons_self c t))]
      rw [ih (fun hm => h (List.mem_cons_of_mem c hm))]

theorem sof_snd_sub {ch : Char} {l : List Char} {x : Char}
    (h : x ∈ (splitOnFirst ch l).2) : x ∈ l := by
  induction l with
  | nil => simpa [splitOnFirst] using h
  | cons c t ih =>
      unfold splitOnFirst at h
      by_cases hc : c = ch
      · rw [if_pos hc] at h
        exact List.mem_cons_of_mem c h
      · rw [if_neg hc] at h
        exact List.mem_cons_of_mem c (ih h)

theorem tw_lt_of_mem {p : Char → Bool} {l : List Char} {x : Char}
    (hx : x ∈ l) (hp : p x = false) : (l.takeWhile p).length < l.length := by
  have hne : l.takeWhile p ≠ l := by
    intro he
    have := List.takeWhile_eq_self_iff.mp he x hx
    rw [hp] at this
    exact absurd this (by simp)
  have hle := (List.takeWhile_prefix p (l := l)).length_le
  rcases Nat.lt_or_ge (l.takeWhile p).length l.length with hlt | hge
  · exact hlt
  · exact absurd ((List.takeWhile_prefix p).eq_of_length (Nat.le_antisymm hle hge))
      hne

theorem tw_append_all {p : Char → Bool} {a b : List Char} {c : Char}
    (ha : ∀ y ∈ a, p y = true) (hc : p c = false) :
    (a ++ c :: b).takeWhile p = a := by
  rw [List.takeWhile_append]
  have h1 : a.takeWhile p = a := List.takeWhile_eq_self_iff.mpr ha
  rw [h1]
  rw [if_pos rfl]
  rw [List.takeWhile_cons, hc]
  simp

theorem dw_append_all {p : Char → Bool} {a b : List Char} {c : Char}
    (ha : ∀ y ∈ a, p y = true) (hc : p c = false) :
    (a ++ c :: b).dropWhile p = c :: b := by
  induction a with
  | nil =>
      simp only [List.nil_append]
      rw [List.dropWhile_cons, hc]
      simp
  | cons y t ih =>
      simp only [List.cons_append]
      rw [List.dropWhile_cons, ha y (by simp)]
      simp only [if_pos]
      exact ih fun z hz => ha z (List.mem_cons_of_mem y hz)

theorem tw_eq_of_prefix_stop {pred : Char → Bool} {p l : List Char}
    (hp : p <+: l) (hstop : ∃ x ∈ p, pred x = false) :
    l.takeWhile pred = p.takeWhile pred := by
  obtain ⟨t, rfl⟩ := hp
  rw [List.takeWhile_append]
  rw [if_neg]
  intro he
  obtain ⟨x, hx, hpx⟩ := hstop
  have heq : p.takeWhile pred = p :=
    (List.takeWhile_prefix pred).eq_of_length
      (Nat.le_antisymm (List.takeWhile_prefix pred).length_le (le_of_eq he.symm))
  have := List.takeWhile_eq_self_iff.mp heq x hx
  rw [hpx] at this
  exact absurd this (by simp)

theorem prefix_head? {p l : List Char} (hp : p <+: l) (hne : p ≠ []) :
    p.head? = l.head? := by
  obtain ⟨t, rfl⟩ := hp
  cases p with
  | nil => exact absurd rfl hne
  | cons c u => rfl

/-! ### splitScheme lemmas -/

theorem schemeOk_not_colon {s : List Char} (h : schemeOkChars s = true) :
    ':' ∉ s := by
  intro hc
  cases s with
  | nil => simp at hc
  | cons c t =>
      unfold schemeOkChars at h
      rw [Bool.and_eq_true] at h
      have := List.all_eq_true.mp h.2 ':' hc
      exact absurd this (by decide)

theorem ss_build {s r : List Char} (h : schemeOkChars s = true) :
    splitScheme (s ++ ':' :: r) = (some (s.map lowerC), r) := by
  have hcolon : ':' ∉ s := schemeOk_not_colon h
  have htw : (s ++ ':' :: r).takeWhile (· ≠ ':') = s :=
    tw_append_all (fun y hy => decide_eq_true fun he => hcolon (he ▸ hy))
      (by simp)
  have hlen : s.length < (s ++ ':' :: r).length := by
    rw [List.length_append, List.length_cons]
    omega
  unfold splitScheme
  rw [htw]
  rw [if_pos ⟨hlen, h⟩]
  have hdrop : (s ++ ':' :: r).drop (s.length + 1) = r := by
    have : s ++ ':' :: r = (s ++ [':']) ++ r := by simp
    rw [this]
    have hl : s.length + 1 = (s ++ [':']).length := by simp
    rw [hl, List.drop_left]
  rw [hdrop]

theorem ss_none_pair {l : List Char} (h : (splitScheme l).1 = none) :
    splitScheme l = (none, l) := by
  unfold splitScheme at h ⊢
  split at h
  · exact absurd h (by simp)
  · next hc => rw [if_neg hc]

theorem schemeOk_map_lowerC {s : List Char} (h : schemeOkChars s = true) :
    schemeOkChars (s.map lowerC) = true := by
  cases s with
  | nil => simpa using h
  | cons c t =>
      unfold schemeOkChars at h ⊢
      rw [List.map_cons]
      rw [Bool.and_eq_true] at h ⊢
      refine ⟨by rw [isAlphaChar_lowerC]; exact h.1, ?_⟩
      rw [List.all_eq_true] at h ⊢
      intro x hx
      rw [← List.map_cons] at hx
      rcases List.mem_map.mp hx with ⟨y, hy, rfl⟩
      rw [isSchemeChar_lowerC]
      exact h.2 y hy

theorem ss_some_ne {l : List Char} {s : List Char}
    (h : (splitScheme l).1 = some s) : s ≠ [] ∧ schemeOkChars s = true ∧
      s.map lowerC = s := by
  unfold splitScheme at h
  split at h
  · next hc =>
      simp only [Option.some.injEq] at h
      subst h
      refine ⟨?_, ?_, map_lowerC_idem _⟩
      · intro he
        rw [List.map_eq_nil_iff] at he
        rw [he] at hc
        exact absurd hc.2 (by decide)
      · exact schemeOk_map_lowerC hc.2
  · exact absurd h (by simp)

theorem ss_none_head {c : Char} {xs : List Char} (h : isAlphaChar c = false) :
    splitScheme (c :: xs) = (none, c :: xs) := by
  unfold splitScheme
  rw [if_neg]
  rintro ⟨hlen, hok⟩
  rw [List.takeWhile_cons] at hok
  by_cases hc : c = ':'
  · rw [if_neg (by simpa using hc)] at hok
    exact absurd hok (by decide)
  · rw [if_pos (by simpa using hc)] at hok
    unfold schemeOkChars at hok
    rw [Bool.and_eq_true] at hok
    rw [h] at hok
    exact absurd hok.1 (by simp)

theorem ss_no_colon {l : List Char} (h : ':' ∉ l) :
    splitScheme l = (none, l) := by
  unfold splitScheme
  rw [if_neg]
  rintro ⟨hlen, -⟩
  have htw : l.takeWhile (· ≠ ':') = l :=
    List.takeWhile_eq_self_iff.mpr fun x hx =>
      decide_eq_true fun he => h (he ▸ hx)
  rw [htw] at hlen
  omega

theorem ss_bad_mem {l : List Char} {x : Char}
    (hx : x ∈ l.takeWhile (· ≠ ':')) (hbad : isSchemeChar x = false) :
    splitScheme l = (none, l) := by
  unfold splitScheme
  rw [if_neg]
  rintro ⟨-, hok⟩
  cases hm : l.takeWhile (· ≠ ':') with
  | nil => rw [hm] at hx; simp at hx
  | cons c t =>
      rw [hm] at hok hx
      unfold schemeOkChars at hok
      rw [Bool.and_eq_true] at hok
      have := List.all_eq_true.mp hok.2 x hx
      rw [hbad] at this
      exact absurd this (by simp)

theorem ss_agree {p l₁ l₂ : List Char} (h1 : p <+: l₁) (h2 : p <+: l₂)
    (hc : ':' ∈ p) (hl : (splitScheme l₁).1 = none) :
    splitScheme l₂ = (none, l₂) := by
  have ht1 : l₁.takeWhile (· ≠ ':') = p.takeWhile (· ≠ ':') :=
    tw_eq_of_prefix_stop h1 ⟨':', hc, by simp⟩
  have ht2 : l₂.takeWhile (· ≠ ':') = p.takeWhile (· ≠ ':') :=
    tw_eq_of_prefix_stop h2 ⟨':', hc, by simp⟩
  have hlt1 : (l₁.takeWhile (· ≠ ':')).length < l₁.length :=
    tw_lt_of_mem (h1.subset hc) (by simp)
  have hlt2 : (l₂.takeWhile (· ≠ ':')).length < l₂.length :=
    tw_lt_of_mem (h2.subset hc) (by simp)
  have hok : schemeOkChars (p.takeWhile (· ≠ ':')) = false := by
    by_contra hn
    have hok2 : schemeOkChars (l₁.takeWhile (· ≠ ':')) = true := by
      rw [ht1]
      exact Bool.of_not_eq_false hn
    unfold splitScheme at hl
    rw [if_pos ⟨hlt1, hok2⟩] at hl
    simp at hl
  unfold splitScheme
  rw [if_neg]
  rintro ⟨-, hok2⟩
  rw [ht2, hok] at hok2
  exact absurd hok2 (by simp)

/-! ### splitNetloc lemmas -/

theorem sn_build {n u : List Char} (hn : ∀ c ∈ n, isNetlocEnd c = false)
    (hu : ∃ w, u = '/' :: w) :
    splitNetloc ('/' :: '/' :: (n ++ u)) = (n, u) := by
  obtain ⟨w, rfl⟩ := hu
  show ((n ++ '/' :: w).takeWhile (fun c => !isNetlocEnd c),
    (n ++ '/' :: w).dropWhile (fun c => !isNetlocEnd c)) = (n, '/' :: w)
  rw [tw_append_all (fun y hy => by rw [hn y hy]; rfl) (by decide)]
  rw [dw_append_all (fun y hy => by rw [hn y hy]; rfl) (by decide)]

theorem sn_not {l : List Char} (h : ¬['/', '/'] <+: l) :
    splitNetloc l = ([], l) := by
  match l with
  | [] => rfl
  | [c] =>
      unfold splitNetloc
      split
      · next heq => exact absurd (by rw [heq]; exact ⟨_, rfl⟩) h
      · rfl
  | c1 :: c2 :: rest =>
      unfold splitNetloc
      split
      · next heq => exact absurd (by rw [heq]; exact ⟨_, rfl⟩) h
      · rfl

/-! ### rstrip lemmas -/

theorem rstrip_prefix (l : List Char) : rstripSlash l <+: l := by
  unfold rstripSlash
  rw [← List.reverse_reverse l]
  rw [List.reverse_prefix]
  simp only [List.reverse_reverse]
  exact List.dropWhile_suffix _

theorem rstrip_idem (l : List Char) :
    rstripSlash (rstripSlash l) = rstripSlash l := by
  unfold rstripSlash
  rw [List.reverse_reverse]
  congr 1
  cases hd : l.reverse.dropWhile (· = '/') with
  | nil => simp
  | cons c t =>
      have hc : ¬(c = '/') := by
        have := List.head?_dropWhile_not (· = '/') l.reverse
        rw [hd] at this
        simpa using this
      rw [List.dropWhile_cons, if_neg (by simpa using hc)]

theorem normPath_fix (p : List Char) :
    orSlash (rstripSlash (orSlash (rstripSlash p))) = orSlash (rstripSlash p) := by
  cases hr : rstripSlash p with
  | nil =>
      have h1 : orSlash ([] : List Char) = ['/'] := rfl
      rw [h1]
      have h2 : rstripSlash ['/'] = [] := by decide
      rw [h2]
      exact h1
  | cons c t =>
      have h1 : orSlash (c :: t) = c :: t := by simp [orSlash]
      rw [h1]
      have h2 : rstripSlash (c :: t) = c :: t := by rw [← hr, rstrip_idem, hr]
      rw [h2]
      exact h1

theorem rstrip_head {l : List Char} {c : Char} (h : l.head? = some c) :
    rstripSlash l = [] ∨ (rstripSlash l).head? = some c := by
  cases hr : rstripSlash l with
  | nil => exact Or.inl rfl
  | cons x t =>
      right
      have hp := rstrip_prefix l
      rw [hr] at hp
      rw [← h, ← prefix_head? hp (by simp)]

/-! ### Reparse of the normalized form -/

theorem unsplit_noFrag (sch net u qry : List Char) :
    urlunsplit sch net u qry [] =
      (if sch ≠ [] then sch ++ [':'] else []) ++
      ((if net ≠ [] ∨ ['/', '/'].isPrefixOf u then
          '/' :: '/' :: (net ++
            (if u ≠ [] ∧ ¬(['/'].isPrefixOf u) then '/' :: u else u))
        else u) ++
      (if qry ≠ [] then '?' :: qry else [])) := by
  simp only [urlunsplit]
  rw [if_neg (show ¬(([] : List Char) ≠ []) by simp)]
  by_cases h1 : net ≠ [] ∨ ['/', '/'].isPrefixOf u
  · rw [if_pos h1]
    by_cases h2 : sch ≠ [] <;> by_cases h3 : qry ≠ [] <;>
      simp [h2, h3, List.append_assoc]
  · rw [if_neg h1]
    by_cases h2 : sch ≠ [] <;> by_cases h3 : qry ≠ [] <;>
      simp [h2, h3, List.append_assoc]

theorem no_dslash_append {pth q' : List Char} (hpne : pth ≠ [])
    (hnp : ¬(['/', '/'].isPrefixOf pth = true))
    (hq : q' = [] ∨ q'.head? = some '?') :
    ¬(['/', '/'].isPrefixOf (pth ++ q') = true) := by
  intro hpre
  rw [List.isPrefixOf_iff_prefix] at hpre hnp
  match pth, hpne with
  | [c], _ =>
      simp only [List.singleton_append] at hpre
      rw [List.cons_prefix_cons] at hpre
      obtain ⟨rfl, hpre2⟩ := hpre
      rcases hq with hq1 | hq1
      · rw [hq1] at hpre2
        simpa using hpre2
      · cases q' with
        | nil => simp at hq1
        | cons d w =>
            have hd : d = '?' := by simpa using hq1
            rw [List.cons_prefix_cons] at hpre2
            rw [hd] at hpre2
            exact absurd hpre2.1 (by decide)
  | c1 :: c2 :: t, _ =>
      apply hnp
      simp only [List.cons_append] at hpre
      rw [List.cons_prefix_cons] at hpre ⊢
      refine ⟨hpre.1, ?_⟩
      rw [List.cons_prefix_cons] at hpre ⊢
      exact ⟨hpre.2.1, List.nil_prefix⟩

/-- Re-parsing the unparse of normalized, params-free components recovers
them: the scheme is well formed (or absent with no false scheme readable
from the front), the authority has no delimiter characters, the path is
non-empty, free of `#?` and slash-fronted whenever an authority or a
`//` prefix demands it, and the query is `#`-free. -/
theorem reparse_split (sch net pth qry : List Char)
    (hsch : sch = [] ∨ schemeOkChars sch = true)
    (hnet : ∀ c ∈ net, isNetlocEnd c = false)
    (hpne : pth ≠ [])
    (hph : '#' ∉ pth) (hpq : '?' ∉ pth)
    (hqh : '#' ∉ qry)
    (hslash : net ≠ [] → ['/'].isPrefixOf pth = true)
    (hdsl : net = [] → ['/', '/'].isPrefixOf pth = true →
      ['/'].isPrefixOf pth = true)
    (hnoscheme : sch = [] → net = [] → ¬(['/', '/'].isPrefixOf pth = true) →
      splitScheme (pth ++ (if qry ≠ [] then '?' :: qry else [])) =
        (none, pth ++ (if qry ≠ [] then '?' :: qry else []))) :
    urlsplitRaw (urlunsplit sch net pth qry []) [] =
      ⟨sch.map lowerC, net, pth, qry, []⟩ := by
  obtain ⟨q', hq'⟩ : ∃ q', (if qry ≠ [] then '?' :: qry else []) = q' :=
    ⟨_, rfl⟩
  have hq'cases : q' = (if qry ≠ [] then '?' :: qry else []) := hq'.symm
  have hq'h : '#' ∉ q' := by
    rw [hq'cases]
    split
    · intro hm
      rcases List.mem_cons.mp hm with h1 | h1
      · exact absurd h1 (by decide)
      · exact hqh h1
    · simp
  have hq'head : q' = [] ∨ q'.head? = some '?' := by
    rw [hq'cases]
    split
    · right; rfl
    · left; rfl
  have hfrag : splitOnFirst '#' (pth ++ q') = (pth ++ q', []) := by
    apply sof_not_mem
    intro hm
    rcases List.mem_append.mp hm with h1 | h1
    · exact hph h1
    · exact hq'h h1
  have hquery : splitOnFirst '?' (pth ++ q') = (pth, qry) := by
    rw [hq'cases]
    split
    · exact sof_append hpq
    · next hq0 =>
        have : qry = [] := by simpa using hq0
        rw [this, List.append_nil]
        exact sof_not_mem hpq
  by_cases hA : net ≠ [] ∨ ['/', '/'].isPrefixOf pth
  · have hp1 : ['/'].isPrefixOf pth = true := by
      rcases hA with hA1 | hA2
      · exact hslash hA1
      · by_cases hn0 : net = []
        · exact hdsl hn0 hA2
        · exact hslash hn0
    obtain ⟨p', hp'⟩ : ∃ p', pth = '/' :: p' := by
      rw [List.isPrefixOf_iff_prefix] at hp1
      obtain ⟨t, ht⟩ := hp1
      exact ⟨t, ht.symm⟩
    have hins : ¬(pth ≠ [] ∧ ¬(['/'].isPrefixOf pth)) := by
      simp [hp1]
    have hm : urlunsplit sch net pth qry [] =
        (if sch ≠ [] then sch ++ [':'] else []) ++
          ('/' :: '/' :: (net ++ pth) ++ q') := by
      rw [unsplit_noFrag]
      rw [if_pos hA, if_neg hins, hq']
    have hX : ('/' :: '/' :: (net ++ pth)) ++ q' =
        '/' :: '/' :: (net ++ (pth ++ q')) := by
      simp [List.append_assoc]
    have hnl : splitNetloc ('/' :: '/' :: (net ++ (pth ++ q'))) =
        (net, pth ++ q') :=
      sn_build hnet ⟨p' ++ q', by rw [hp']; rfl⟩
    by_cases hs : sch ≠ []
    · have hok : schemeOkChars sch = true := by
        rcases hsch with h1 | h1
        · exact absurd h1 hs
        · exact h1
      have hm2 : urlunsplit sch net pth qry [] =
          sch ++ ':' :: ('/' :: '/' :: (net ++ (pth ++ q'))) := by
        rw [hm, if_pos hs, ← hX]
        simp [List.append_assoc]
      rw [hm2]
      have hS := ss_build (r := '/' :: '/' :: (net ++ (pth ++ q'))) hok
      unfold urlsplitRaw
      simp only [hS, Option.getD_some, hnl, hfrag, hquery]
    · have hs0 : sch = [] := by simpa using hs
      have hm2 : urlunsplit sch net pth qry [] =
          '/' :: '/' :: (net ++ (pth ++ q')) := by
        rw [hm, if_neg hs, ← hX]
        simp
      rw [hm2]
      have hS : splitScheme ('/' :: '/' :: (net ++ (pth ++ q'))) =
          (none, '/' :: '/' :: (net ++ (pth ++ q'))) :=
        ss_none_head (by decide)
      unfold urlsplitRaw
      rw [hs0]
      simp only [hS, Option.getD_none, List.map_nil, hnl, hfrag, hquery]
  · have hnet0 : net = [] := by
      rcases not_or.mp hA with ⟨h1, -⟩
      simpa using h1
    have hnp : ¬(['/', '/'].isPrefixOf pth = true) := (not_or.mp hA).2
    have hm : urlunsplit sch net pth qry [] =
        (if sch ≠ [] then sch ++ [':'] else []) ++ (pth ++ q') := by
      rw [unsplit_noFrag]
      rw [if_neg hA, hq']
    have hnl : splitNetloc (pth ++ q') = ([], pth ++ q') :=
      sn_not (by
        rw [← List.isPrefixOf_iff_prefix]
        simpa using no_dslash_append hpne hnp hq'head)
    by_cases hs : sch ≠ []
    · have hok : schemeOkChars sch = true := by
        rcases hsch with h1 | h1
        · exact absurd h1 hs
        · exact h1
      have hm2 : urlunsplit sch net pth qry [] =
          sch ++ ':' :: (pth ++ q') := by
        rw [hm, if_pos hs]
        simp [List.append_assoc]
      rw [hm2]
      have hS := ss_build (r := pth ++ q') hok
      unfold urlsplitRaw
      rw [hnet0]
      simp only [hS, Option.getD_some, hnl, hfrag, hquery]
    · have hs0 : sch = [] := by simpa using hs
      have hm2 : urlunsplit sch net pth qry [] = pth ++ q' := by
        rw [hm, if_neg hs]
        simp
      rw [hm2]
      have hS := hnoscheme hs0 hnet0 hnp
      rw [hq'] at hS
      unfold urlsplitRaw
      rw [hs0, hnet0]
      simp only [hS, Option.getD_none, List.map_nil, hnl, hfrag, hquery]

theorem mem_unsplit {x : Char} {sch net url qry frag : List Char}
    (hx : x ∈ url) :
    x ∈ urlunsplit sch net url qry frag := by
  simp only [urlunsplit]
  split_ifs <;> simp_all [List.mem_append, List.mem_cons]

theorem sn_mem {l : List Char} {c : Char} (h : c ∈ (splitNetloc l).1) :
    isNetlocEnd c = false := by
  by_cases hd : ['/', '/'] <+: l
  · obtain ⟨t, rfl⟩ := hd
    have h2 : c ∈ t.takeWhile (fun c => !isNetlocEnd c) := h
    have := List.mem_takeWhile_imp h2
    simpa using this
  · rw [sn_not hd] at h
    simp at h

theorem usr_facts (l d : List Char) :
    '#' ∉ (urlsplitRaw l d).path ∧ '?' ∉ (urlsplitRaw l d).path ∧
      '#' ∉ (urlsplitRaw l d).query ∧
      ∀ c ∈ (urlsplitRaw l d).netloc, isNetlocEnd c = false := by
  refine ⟨?_, ?_, ?_, ?_⟩
  · intro hm
    simp only [urlsplitRaw] at hm
    rw [sof_fst] at hm
    have hm2 := (List.takeWhile_prefix _).subset hm
    rw [sof_fst] at hm2
    have := List.mem_takeWhile_imp hm2
    simp at this
  · intro hm
    simp only [urlsplitRaw] at hm
    rw [sof_fst] at hm
    have := List.mem_takeWhile_imp hm
    simp at this
  · intro hm
    simp only [urlsplitRaw] at hm
    have hm2 := sof_snd_sub hm
    rw [sof_fst] at hm2
    have := List.mem_takeWhile_imp hm2
    simp at this
  · intro c hc
    simp only [urlsplitRaw] at hc
    exact sn_mem hc

theorem dw_head_false {p : Char → Bool} {t : List Char} {c : Char}
    {w : List Char} (h : t.dropWhile p = c :: w) : p c = false := by
  induction t with
  | nil => simp at h
  | cons a s ih =>
      rw [List.dropWhile_cons] at h
      by_cases hp : p a = true
      · rw [if_pos hp] at h
        exact ih h
      · rw [if_neg hp] at h
        injection h with h1 h2
        rw [← h1]
        simpa using hp

theorem usr_path_head_dslash {l : List Char} (d : List Char)
    (h : ['/', '/'] <+: (splitScheme l).2) :
    (urlsplitRaw l d).path = [] ∨ (urlsplitRaw l d).path.head? = some '/' := by
  obtain ⟨t, ht⟩ := h
  simp only [urlsplitRaw]
  rw [← ht]
  have hsn : splitNetloc (['/', '/'] ++ t) =
      (t.takeWhile (fun c => !isNetlocEnd c),
       t.dropWhile (fun c => !isNetlocEnd c)) := rfl
  rw [hsn]
  dsimp only
  rw [sof_fst, sof_fst]
  cases hX : t.dropWhile (fun c => !isNetlocEnd c) with
  | nil =>
      left
      rfl
  | cons c w =>
      have hc2 : isNetlocEnd c = true := by
        simpa using dw_head_false hX
      have hc3 : (c = '/' ∨ c = '?') ∨ c = '#' := by
        simpa [isNetlocEnd] using hc2
      rcases hc3 with (rfl | rfl) | rfl
      · right
        rw [List.takeWhile_cons_of_pos (by decide),
          List.takeWhile_cons_of_pos (by decide)]
        rfl
      · left
        rw [List.takeWhile_cons_of_pos (by decide),
          List.takeWhile_cons_of_neg (by decide)]
      · left
        rw [List.takeWhile_cons_of_neg (by decide)]
        rfl

theorem als_suffix (x : List Char) : afterLastSlash x <:+ x := by
  unfold afterLastSlash
  conv_rhs => rw [← List.reverse_reverse x]
  exact List.reverse_suffix.mpr (List.takeWhile_prefix _)

theorem suffix_decomp {b x : List Char} (h : b <:+ x) :
    x.take (x.length - b.length) ++ b = x := by
  obtain ⟨s, hs⟩ := h
  have h2 : x.length - b.length = s.length := by
    have := congrArg List.length hs
    simp only [List.length_append] at this
    omega
  rw [h2, ← hs, List.take_left]

theorem sp_fst_prefix (x : List Char) : (splitparams x).1 <+: x := by
  simp only [splitparams]
  split_ifs with h1 h2 h3
  · have hd := suffix_decomp (als_suffix x)
    rw [sof_fst]
    obtain ⟨s, hs⟩ := List.takeWhile_prefix (l := afterLastSlash x)
      (fun c => decide (c ≠ ';'))
    refine ⟨s, ?_⟩
    rw [List.append_assoc, hs, hd]
  · exact List.prefix_rfl
  · rw [sof_fst]
    exact List.takeWhile_prefix _
  · exact List.prefix_rfl

theorem upr_eq (l d : List Char) :
    (urlparseRaw l d).scheme = (urlsplitRaw l d).scheme ∧
      (urlparseRaw l d).netloc = (urlsplitRaw l d).netloc ∧
      (urlparseRaw l d).query = (urlsplitRaw l d).query ∧
      (urlparseRaw l d).fragment = (urlsplitRaw l d).fragment ∧
      (urlparseRaw l d).path <+: (urlsplitRaw l d).path := by
  simp only [urlparseRaw]
  split
  · exact ⟨rfl, rfl, rfl, rfl, sp_fst_prefix _⟩
  · exact ⟨rfl, rfl, rfl, rfl, List.prefix_rfl⟩

theorem usr_path_prefix (l d : List Char)
    (h2 : splitNetloc (splitScheme l).2 = ([], (splitScheme l).2))
    (h3 : (splitScheme l).2 = l) :
    (urlsplitRaw l d).path <+: l := by
  have hp : (urlsplitRaw l d).path =
      ((splitScheme l).2.takeWhile (· ≠ '#')).takeWhile (· ≠ '?') := by
    simp only [urlsplitRaw]
    rw [h2, sof_fst, sof_fst]
  rw [hp, h3]
  exact (List.takeWhile_prefix _).trans (List.takeWhile_prefix _)

theorem orSlash_ne_nil (l : List Char) : orSlash l ≠ [] := by
  unfold orSlash
  split_ifs with h
  · simp
  · intro he
    rw [he] at h
    exact h rfl

theorem head_slash_isPrefixOf {x : List Char} (h : x.head? = some '/') :
    ['/'].isPrefixOf x = true := by
  cases x with
  | nil => simp at h
  | cons c t =>
      have hc : c = '/' := by simpa using h
      rw [List.isPrefixOf_iff_prefix, hc]
      exact ⟨t, rfl⟩

theorem path_norm_head {p : List Char} (h : p = [] ∨ p.head? = some '/') :
    (orSlash (rstripSlash p)).head? = some '/' := by
  rcases h with rfl | hh
  · rfl
  · rcases rstrip_head hh with h0 | h0
    · rw [h0]
      rfl
    · have hne : rstripSlash p ≠ [] := by
        intro he
        rw [he] at h0
        simp at h0
      unfold orSlash
      rw [if_neg]
      · exact h0
      · simp [hne]

/-- A second normalization pass is the identity whenever the first pass
produced a semicolon-free URL: the unparsed result re-splits into exactly
the normalized components, which normParts then fixes. -/
theorem coreNormalize_fixed {l m : List Char}
    (h : coreNormalize l = some m) (hsemi : ';' ∉ m) :
    coreNormalize m = some m := by
  simp only [coreNormalize, urlparseOpt] at h
  by_cases hbr : bracketOk (urlsplitRaw l []).netloc = true
  · rw [if_pos hbr] at h
    simp only [Option.map_some', Option.some.injEq] at h
    obtain ⟨hPsch, hPnet, hPqry, hPfrag, hPpath⟩ := upr_eq l []
    have hF := usr_facts l []
    simp only [urlunparse, normParts] at h
    have hparams : (urlparseRaw l []).params = [] := by
      by_contra hne
      apply hsemi
      rw [← h]
      apply mem_unsplit
      rw [if_pos hne]
      simp
    rw [if_neg (fun hc => hc hparams)] at h
    have hsemip : ';' ∉ orSlash (rstripSlash (urlparseRaw l []).path) :=
      fun hx => hsemi (h ▸ mem_unsplit hx)
    have hsch : (urlparseRaw l []).scheme.map lowerC = [] ∨
        schemeOkChars ((urlparseRaw l []).scheme.map lowerC) = true := by
      rw [hPsch]
      simp only [urlsplitRaw]
      cases hss : (splitScheme l).1 with
      | none =>
          left
          rfl
      | some s =>
          right
          obtain ⟨-, hok, hidem⟩ := ss_some_ne hss
          show schemeOkChars (s.map lowerC) = true
          rw [hidem]
          exact hok
    have hnet : ∀ c ∈ (urlparseRaw l []).netloc.map lowerC,
        isNetlocEnd c = false := by
      intro c hc
      rw [hPnet] at hc
      obtain ⟨c0, hc0, rfl⟩ := List.mem_map.mp hc
      rw [isNetlocEnd_lowerC]
      exact hF.2.2.2 c0 hc0
    have hpne : orSlash (rstripSlash (urlparseRaw l []).path) ≠ [] :=
      orSlash_ne_nil _
    have hpthmem : ∀ x ∈ orSlash (rstripSlash (urlparseRaw l []).path),
        x = '/' ∨ x ∈ (urlsplitRaw l []).path := by
      intro x hx
      by_cases hr0 : rstripSlash (urlparseRaw l []).path = []
      · left
        rw [hr0] at hx
        simpa [orSlash] using hx
      · right
        have hx2 : x ∈ rstripSlash (urlparseRaw l []).path := by
          unfold orSlash at hx
          rw [if_neg] at hx
          · exact hx
          · simp [hr0]
        exact hPpath.subset (( rstrip_prefix _).subset hx2)
    have hph : '#' ∉ orSlash (rstripSlash (urlparseRaw l []).path) := by
      intro hm'
      rcases hpthmem _ hm' with h1 | h1
      · exact absurd h1 (by decide)
      · exact hF.1 h1
    have hpq : '?' ∉ orSlash (rstripSlash (urlparseRaw l []).path) := by
      intro hm'
      rcases hpthmem _ hm' with h1 | h1
      · exact absurd h1 (by decide)
      · exact hF.2.1 h1
    have hqh : '#' ∉ (urlparseRaw l []).query := by
      rw [hPqry]
      exact hF.2.2.1
    have hslash : (urlparseRaw l []).netloc.map lowerC ≠ [] →
        ['/'].isPrefixOf (orSlash (rstripSlash (urlparseRaw l []).path)) =
          true := by
      intro hn
      have hn0 : (urlsplitRaw l []).netloc ≠ [] := by
        rw [← hPnet]
        intro he
        apply hn
        rw [he]
        rfl
      have hds : ['/', '/'] <+: (splitScheme l).2 := by
        by_contra hnd
        apply hn0
        have hsn := sn_not hnd
        simp only [urlsplitRaw]
        rw [hsn]
      have hhead := usr_path_head_dslash ([] : List Char) hds
      have hPdis : (urlparseRaw l []).path = [] ∨
          (urlparseRaw l []).path.head? = some '/' := by
        rcases hhead with h0 | h0
        · exact Or.inl (List.prefix_nil.mp (h0 ▸ hPpath))
        · by_cases hPn : (urlparseRaw l []).path = []
          · exact Or.inl hPn
          · exact Or.inr (( prefix_head? hPpath hPn).trans h0)
      exact head_slash_isPrefixOf (path_norm_head hPdis)
    have hdsl : (urlparseRaw l []).netloc.map lowerC = [] →
        ['/', '/'].isPrefixOf
            (orSlash (rstripSlash (urlparseRaw l []).path)) = true →
        ['/'].isPrefixOf (orSlash (rstripSlash (urlparseRaw l []).path)) =
          true := by
      intro _ h2
      rw [ List.isPrefixOf_iff_prefix] at h2 ⊢
      exact List.IsPrefix.trans ⟨['/'], rfl⟩ h2
    have hnoscheme : (urlparseRaw l []).scheme.map lowerC = [] →
        (urlparseRaw l []).netloc.map lowerC = [] →
        ¬(['/', '/'].isPrefixOf
            (orSlash (rstripSlash (urlparseRaw l []).path)) = true) →
        splitScheme (orSlash (rstripSlash (urlparseRaw l []).path) ++
            (if (urlparseRaw l []).query ≠ []
              then '?' :: (urlparseRaw l []).query else [])) =
          (none, orSlash (rstripSlash (urlparseRaw l []).path) ++
            (if (urlparseRaw l []).query ≠ []
              then '?' :: (urlparseRaw l []).query else [])) := by
      intro hs0 hn0 hnd
      have hPs0 : (urlparseRaw l []).scheme = [] := List.map_eq_nil_iff.mp hs0
      have hSs0 : (urlsplitRaw l []).scheme = [] := by
        rw [← hPsch]
        exact hPs0
      have hssl : splitScheme l = (none, l) := by
        apply ss_none_pair
        cases hss : (splitScheme l).1 with
        | none => rfl
        | some s =>
            obtain ⟨hne, -, -⟩ := ss_some_ne hss
            exfalso
            apply hne
            have hsv : (urlsplitRaw l []).scheme = s := by
              simp only [urlsplitRaw]
              rw [hss]
              rfl
            rw [← hsv]
            exact hSs0
      have hSn0 : (urlsplitRaw l []).netloc = [] := by
        rw [← hPnet]
        exact List.map_eq_nil_iff.mp hn0
      by_cases hh : (orSlash (rstripSlash (urlparseRaw l []).path)).head? =
          some '/'
      · cases hp : orSlash (rstripSlash (urlparseRaw l []).path) with
        | nil => exact absurd hp hpne
        | cons c t =>
            rw [hp] at hh
            obtain rfl : c = '/' := by simpa using hh
            rw [List.cons_append]
            exact ss_none_head (by decide)
      · have hrne : rstripSlash (urlparseRaw l []).path ≠ [] := by
          intro he
          apply hh
          rw [he]
          rfl
        have hpth_eq : orSlash (rstripSlash (urlparseRaw l []).path) =
            rstripSlash (urlparseRaw l []).path := by
          simp only [orSlash]
          rw [if_neg]
          simp [hrne]
        have hPne : (urlparseRaw l []).path ≠ [] := by
          intro he
          apply hrne
          rw [he]
          rfl
        have hSne : (urlsplitRaw l []).path ≠ [] := by
          intro he
          apply hPne
          have hpp := hPpath
          rw [he] at hpp
          exact List.prefix_nil.mp hpp
        have hheads : (urlparseRaw l []).path.head? =
            (urlsplitRaw l []).path.head? := prefix_head? hPpath hPne
        have hShead : (urlsplitRaw l []).path.head? ≠ some '/' := by
          intro hq
          apply hh
          rw [hpth_eq]
          rcases rstrip_head (hheads.trans hq) with h0 | h0
          · exact absurd h0 hrne
          · exact h0

        have hndl : ¬ ['/', '/'] <+: (splitScheme l).2 := by
          intro hds
          rcases usr_path_head_dslash ([] : List Char) hds with h0 | h0
          · exact hSne h0
          · exact hShead h0
        have hsnl : splitNetloc (splitScheme l).2 =
            ([], (splitScheme l).2) := sn_not hndl
        have hh3 : (splitScheme l).2 = l := by rw [hssl]
        have hSp : (urlsplitRaw l []).path <+: l :=
          usr_path_prefix l [] hsnl hh3
        have hpl : orSlash (rstripSlash (urlparseRaw l []).path) <+: l := by
          rw [hpth_eq]
          exact (( rstrip_prefix _).trans hPpath).trans hSp
        by_cases hcol : ':' ∈ orSlash (rstripSlash (urlparseRaw l []).path)
        · exact ss_agree hpl ⟨_, rfl⟩ hcol (by rw [hssl])
        · by_cases hq0 : (urlparseRaw l []).query ≠ []
          · rw [if_pos hq0]
            refine ss_bad_mem (x := '?') ?_ (by decide)
            have htww : (orSlash
                (rstripSlash (urlparseRaw l []).path)).takeWhile
                  (· ≠ ':') =
                orSlash (rstripSlash (urlparseRaw l []).path) :=
              List.takeWhile_eq_self_iff.mpr
                (fun x hx => decide_eq_true (fun he => hcol (he ▸ hx)))
            rw [List.takeWhile_append, htww, if_pos rfl]
            apply List.mem_append_right
            rw [List.takeWhile_cons_of_pos (by decide)]
            exact List.mem_cons_self _ _
          · rw [if_neg hq0, List.append_nil]
            exact ss_no_colon hcol
    have hsplit2 : urlsplitRaw m [] = SplitParts.mk
        (((urlparseRaw l []).scheme.map lowerC).map lowerC)
        ((urlparseRaw l []).netloc.map lowerC)
        (orSlash (rstripSlash (urlparseRaw l []).path))
        ((urlparseRaw l []).query) [] := by
      rw [← h]
      exact reparse_split ((urlparseRaw l []).scheme.map lowerC)
        ((urlparseRaw l []).netloc.map lowerC)
        (orSlash (rstripSlash (urlparseRaw l []).path))
        ((urlparseRaw l []).query)
        hsch hnet hpne hph hpq hqh hslash hdsl hnoscheme
    have hmapn : (((urlparseRaw l []).scheme.map lowerC).map lowerC) =
        (urlparseRaw l []).scheme.map lowerC := map_lowerC_idem _
    have hbr2 : bracketOk (urlsplitRaw m []).netloc = true := by
      rw [hsplit2]
      show bracketOk ((urlparseRaw l []).netloc.map lowerC) = true
      rw [bracketOk_map_lowerC, hPnet]
      exact hbr
    have hP2 : urlparseRaw m [] = UrlParts.mk
        ((urlparseRaw l []).scheme.map lowerC)
        ((urlparseRaw l []).netloc.map lowerC)
        (orSlash (rstripSlash (urlparseRaw l []).path)) []
        ((urlparseRaw l []).query) [] := by
      conv_lhs => simp only [urlparseRaw]
      rw [hsplit2]
      rw [if_neg]
      · simp only [hmapn]
      · rintro ⟨-, hcon⟩
        exact hsemip (List.elem_iff.mp hcon)
    have hfin : urlunparse (normParts (UrlParts.mk
        ((urlparseRaw l []).scheme.map lowerC)
        ((urlparseRaw l []).netloc.map lowerC)
        (orSlash (rstripSlash (urlparseRaw l []).path)) []
        ((urlparseRaw l []).query) [])) = m := by
      simp only [normParts, urlunparse]
      rw [if_neg (fun hc => hc rfl)]
      rw [map_lowerC_idem, map_lowerC_idem, normPath_fix]
      exact h
    simp only [coreNormalize, urlparseOpt]
    rw [if_pos hbr2, hP2]
    simp only [Option.map_some']
    rw [hfin]
  · rw [if_neg hbr] at h
    simp at h

/-- C8: Amended idempotence of normalize_url. The spec's unconditional
idempotence claim fails on semicolon path parameters (see
normalize_url_not_idempotent); restricted to results without a semicolon
it holds: if normalize_url(u, base) = r and ';' does not occur in r, then
normalizing r again (with no base) returns r unchanged. -/
theorem normalize_url_idempotent_amended (u : String) (b : Option String)
    (r : String) (h : normalize_url u b = some r)
    (hsemi : ';' ∉ r.toList) :
    normalize_url r none = some r := by
  simp only [normalize_url] at h
  rw [Option.map_eq_some'] at h
  obtain ⟨m, hm1, hm2⟩ := h
  rw [Option.bind_eq_some] at hm1
  obtain ⟨j, hj1, hj2⟩ := hm1
  have hr : r.toList = m := by
    rw [← hm2]
    rfl
  have hsemi' : ';' ∉ m := by
    rw [hr] at hsemi
    exact hsemi
  have hc := coreNormalize_fixed hj2 hsemi'
  simp only [normalize_url]
  show ((some r.toList).bind coreNormalize).map (fun cs => String.mk cs) =
    some r
  rw [Option.some_bind, hr, hc, Option.map_some', hm2]

/-- Witness for C8's amended theorem at a concrete input: normalizing
"https://Example.COM/Path/x/" yields "https://example.com/Path/x", which
is semicolon-free, and a second normalization leaves it unchanged. -/
theorem normalize_url_idempotent_amended_witness :
    normalize_url "https://Example.COM/Path/x/" none =
        some "https://example.com/Path/x" ∧
      normalize_url "https://example.com/Path/x" none =
        some "https://example.com/Path/x" :=
  ⟨by decide,
   normalize_url_idempotent_amended "https://Example.COM/Path/x/" none
     "https://example.com/Path/x" (by decide) (by decide)⟩

end LakeStream
